import Mathlib

/-!
Verification of the document-parsing core of the SOUNDVISION-EXCEL repository
(`src/extract.py`).

Strings are modelled as `List Char`.  Python regular expressions are modelled
by a small backtracking engine (`RE` / `reM`) faithful to `re`'s leftmost /
greedy / lazy semantics for the constructs actually used by the source
(character classes, concatenation, alternation, greedy and lazy repetition,
capture groups, the MULTILINE anchors and the non-MULTILINE end anchor).
Python `float(...)` is modelled exactly over decimal literals (`PyNum`,
an exact sign/mantissa/exponent representation); `str(...)` of such a value
follows CPython's positional/scientific formatting rules.  This model has no
binary rounding: it agrees with CPython on every literal short enough to be
exactly representable, which covers all values exercised here.  The two
regex functions with end-of-string anchors (`get_canonical_name`,
`is_mirror`) are compiled by hand into structural recursions, one regex
construct at a time, so that universal statements about them can be proved.
-/

/-! ### Basic character and string helpers -/

/-- The characters Python's `\s` (and `str.strip` / `float`'s surrounding
whitespace, restricted to ASCII) treats as whitespace. -/
def isPySpace (c : Char) : Bool :=
  c == ' ' || c == '\t' || c == '\n' || c == '\r' || c == Char.ofNat 11 || c == Char.ofNat 12

/-- Python's `\w` restricted to ASCII: letters, digits and underscore. -/
def isWordChar (c : Char) : Bool :=
  c.isAlphanum || c == '_'

/-- Shorthand: the character list of a string literal. -/
def lc (s : String) : List Char :=
  s.toList

/-- Python `str.strip()`: remove leading and trailing whitespace. -/
def pyStrip (s : List Char) : List Char :=
  ((s.dropWhile isPySpace).reverse.dropWhile isPySpace).reverse

/-- Python `str.upper()` (ASCII). -/
def pyUpper (s : List Char) : List Char :=
  s.map Char.toUpper

/-- Value of a list of decimal digit characters (Python `int` on `\d+`). -/
def natOfDigits (l : List Char) : Nat :=
  l.foldl (fun a c => a * 10 + (c.toNat - 48)) 0

/-! ### Exact model of Python floats built from decimal literals

`PyDec` is a nonnegative decimal `m * 10 ^ e` kept in canonical form
(`m` not divisible by 10 unless zero, and `e = 0` when `m = 0`), so equality
of values is structural equality. -/

structure PyDec where
  m : Nat
  e : Int
  deriving DecidableEq, Repr

/-- Canonicalise `m * 10 ^ e` (fuel-based so it reduces in the kernel). -/
def stripZerosF : Nat → Nat → Int → PyDec
  | 0, m, e => ⟨m, if m = 0 then 0 else e⟩
  | fuel + 1, m, e =>
    if m ≠ 0 && m % 10 == 0 then stripZerosF fuel (m / 10) (e + 1)
    else ⟨m, if m = 0 then 0 else e⟩

def mkPyDec (m : Nat) (e : Int) : PyDec :=
  stripZerosF m m e

/-- A value Python's `float(...)` can produce from a string: a signed finite
decimal, a signed infinity, or nan. -/
inductive PyNum where
  | fin (neg : Bool) (d : PyDec)
  | inf (neg : Bool)
  | nan
  deriving DecidableEq, Repr

/-- Run of digits with single underscores allowed strictly between digits,
as Python's numeric literals admit.  Returns the digits (underscores
removed) and the unconsumed remainder. -/
def pyDigRunGo : List Char → List Char → List Char × List Char
  | acc, [] => (acc, [])
  | acc, [c] => if c.isDigit then (acc ++ [c], []) else (acc, [c])
  | acc, c :: c2 :: cs =>
    if c.isDigit then pyDigRunGo (acc ++ [c]) (c2 :: cs)
    else if c == '_' && c2.isDigit then pyDigRunGo (acc ++ [c2]) cs
    else (acc, c :: c2 :: cs)

/-- Parse a nonempty digit run (with underscores); `none` if the first
character is not a digit. -/
def pyDigRun (l : List Char) : Option (List Char × List Char) :=
  match l with
  | c :: cs => if c.isDigit then some (pyDigRunGo [c] cs) else none
  | [] => none

def pyDigRunOpt (l : List Char) : List Char × List Char :=
  match pyDigRun l with
  | some p => p
  | none => ([], l)

/-- Case-insensitively drop a literal word; `none` if it is not a prefix of
the input. -/
def dropWordCI : List Char → List Char → Option (List Char)
  | l, [] => some l
  | [], _ :: _ => none
  | c :: cs, w :: ws => if c.toLower == w then dropWordCI cs ws else none

/-- Parse an optional exponent part `([eE][+-]?digits)?`.  Returns the
exponent value and the remainder; fails if an `e` is present but not
followed by a well-formed digit run. -/
def pyExpParse (l : List Char) : Option (Int × List Char) :=
  match l with
  | c :: cs =>
    if c == 'e' || c == 'E' then
      match cs with
      | '+' :: cs2 =>
        match pyDigRun cs2 with
        | some (ds, r) => some ((natOfDigits ds : Int), r)
        | none => none
      | '-' :: cs2 =>
        match pyDigRun cs2 with
        | some (ds, r) => some (-(natOfDigits ds : Int), r)
        | none => none
      | _ =>
        match pyDigRun cs with
        | some (ds, r) => some ((natOfDigits ds : Int), r)
        | none => none
    else some (0, l)
  | [] => some (0, [])

/-- Build the finite value from integer digits, fraction digits and
exponent. -/
def pyMkFin (neg : Bool) (ids fds : List Char) (ev : Int) : PyNum :=
  .fin neg (mkPyDec (natOfDigits (ids ++ fds)) (ev - (fds.length : Int)))

/-- Parse the part of a float literal after the optional sign. -/
def pyFloatAfterSign (neg : Bool) (l : List Char) : Option PyNum :=
  match dropWordCI l (lc ("infinity")) with
  | some r => if r.all isPySpace then some (.inf neg) else none
  | none =>
  match dropWordCI l (lc ("inf")) with
  | some r => if r.all isPySpace then some (.inf neg) else none
  | none =>
  match dropWordCI l (lc ("nan")) with
  | some r => if r.all isPySpace then some .nan else none
  | none =>
  match pyDigRun l with
  | some (ids, r1) =>
    match r1 with
    | '.' :: r2 =>
      let fr := pyDigRunOpt r2
      match pyExpParse fr.2 with
      | some (ev, r4) => if r4.all isPySpace then some (pyMkFin neg ids fr.1 ev) else none
      | none => none
    | _ =>
      match pyExpParse r1 with
      | some (ev, r4) => if r4.all isPySpace then some (pyMkFin neg ids [] ev) else none
      | none => none
  | none =>
    match l with
    | '.' :: r2 =>
      match pyDigRun r2 with
      | some (fds, r3) =>
        match pyExpParse r3 with
        | some (ev, r4) => if r4.all isPySpace then some (pyMkFin neg [] fds ev) else none
        | none => none
      | none => none
    | _ => none

/-- Python `float(s)`, returning `none` where CPython raises `ValueError`. -/
def pyFloat? (s : List Char) : Option PyNum :=
  match s.dropWhile isPySpace with
  | '+' :: rest => pyFloatAfterSign false rest
  | '-' :: rest => pyFloatAfterSign true rest
  | rest => pyFloatAfterSign false rest

/-- Python `abs` on such a value. -/
def pyAbs : PyNum → PyNum
  | .fin _ d => .fin false d
  | .inf _ => .inf false
  | .nan => .nan

/-- Decimal digit characters of a natural number, most significant first. -/
def natChars (n : Nat) : List Char :=
  Nat.toDigits 10 n

/-- CPython `repr`/`str` of a nonnegative finite float value (exact decimal
model): positional format while the decimal exponent is in `[-4, 16)`,
scientific format with a two-digit padded exponent otherwise. -/
def decRepr (d : PyDec) : List Char :=
  if d.m = 0 then lc ("0.0") else
  let ds := natChars d.m
  let exp10 : Int := (ds.length : Int) - 1 + d.e
  if -4 ≤ exp10 ∧ exp10 < 16 then
    if 0 ≤ d.e then ds ++ List.replicate d.e.toNat '0' ++ lc (".0")
    else
      let k := (-d.e).toNat
      if k < ds.length then ds.take (ds.length - k) ++ '.' :: ds.drop (ds.length - k)
      else lc ("0.") ++ List.replicate (k - ds.length) '0' ++ ds
  else
    let mant :=
      match ds with
      | [] => []
      | d0 :: rest => if rest = [] then [d0] else d0 :: '.' :: rest
    let esign := if exp10 < 0 then '-' else '+'
    let echars := natChars exp10.natAbs
    let epad := if echars.length < 2 then '0' :: echars else echars
    mant ++ 'e' :: esign :: epad

/-- Python `str` of a float value (as the fingerprint code applies it,
always after `abs`). -/
def pyReprOf : PyNum → List Char
  | .nan => lc ("nan")
  | .inf neg => if neg then lc ("-inf") else lc ("inf")
  | .fin neg d => (if neg then ['-'] else []) ++ decRepr d

/-! ### A backtracking regular-expression engine

Continuation-passing matcher with Python `re` priority order: alternation
prefers its left branch, `star` is greedy, `starL` is lazy, and repetition
stops on an empty body match.  `bolM`/`eolM` are the MULTILINE `^`/`$`
anchors, `eosN` is the non-MULTILINE `$` (end of input, or just before a
final newline).  The matcher walks a suffix of the subject (`rest`)
together with the previous character (`prev`) and the absolute position
(`i`); captures are recorded as `(group, start, stop)` triples. -/

inductive RE where
  | eps
  | cls (p : Char → Bool)
  | cat (a b : RE)
  | alt (a b : RE)
  | star (r : RE)
  | starL (r : RE)
  | grp (n : Nat) (r : RE)
  | bolM
  | eolM
  | eosN

abbrev Caps := List (Nat × Nat × Nat)

abbrev ReK := Option Char → List Char → Nat → Caps → Option (Nat × Caps)

def reM : Nat → RE → Option Char → List Char → Nat → Caps → ReK → Option (Nat × Caps)
  | 0, _, _, _, _, _, _ => none
  | fuel + 1, r, prev, rest, i, caps, k =>
    match r with
    | .eps => k prev rest i caps
    | .cls p =>
      match rest with
      | c :: rest2 => if p c then k (some c) rest2 (i + 1) caps else none
      | [] => none
    | .cat a b => reM fuel a prev rest i caps (fun p2 r2 j c2 => reM fuel b p2 r2 j c2 k)
    | .alt a b =>
      match reM fuel a prev rest i caps k with
      | some res => some res
      | none => reM fuel b prev rest i caps k
    | .star r1 =>
      match reM fuel r1 prev rest i caps
          (fun p2 r2 j c2 => if i < j then reM fuel (.star r1) p2 r2 j c2 k else none) with
      | some res => some res
      | none => k prev rest i caps
    | .starL r1 =>
      match k prev rest i caps with
      | some res => some res
      | none =>
        reM fuel r1 prev rest i caps
          (fun p2 r2 j c2 => if i < j then reM fuel (.starL r1) p2 r2 j c2 k else none)
    | .grp n r1 => reM fuel r1 prev rest i caps (fun p2 r2 j c2 => k p2 r2 j ((n, i, j) :: c2))
    | .bolM =>
      if prev = none ∨ prev = some '\n' then k prev rest i caps else none
    | .eolM =>
      if rest = [] ∨ rest.head? = some '\n' then k prev rest i caps else none
    | .eosN =>
      if rest = [] ∨ rest = ['\n'] then k prev rest i caps else none

/-- Fuel used for all concrete matching.  The matcher consumes one unit per
recursion level (not per step), so this bound is far beyond any pattern and
subject in this development. -/
def FUEL : Nat := 1000000000

def kTop : ReK := fun _ _ j c => some (j, c)

/-- Leftmost search from the state `(prev, rest, i)`: Python
`re.search` / the scanning loop of `finditer`.  Returns match start, match
end and the captures. -/
def searchStep (r : RE) : Option Char → List Char → Nat → Option (Nat × Nat × Caps)
  | prev, [], i =>
    match reM FUEL r prev [] i [] kTop with
    | some (j, c) => some (i, j, c)
    | none => none
  | prev, ch :: rest2, i =>
    match reM FUEL r prev (ch :: rest2) i [] kTop with
    | some (j, c) => some (i, j, c)
    | none => searchStep r (some ch) rest2 (i + 1)

/-- Python `re.search` over a whole subject. -/
def reSearch (r : RE) (s : List Char) : Option (Nat × Nat × Caps) :=
  searchStep r none s 0

/-- Advance a `(prev, rest)` cursor by `n` characters. -/
def listAdv : Option Char → List Char → Nat → Option Char × List Char
  | p, rest, 0 => (p, rest)
  | p, [], _ + 1 => (p, [])
  | _, c :: cs, n + 1 => listAdv (some c) cs n

/-- Python `re.finditer`: repeated leftmost search; after a match the scan
resumes at its end (one past it for an empty match) while that position is
still inside the subject. -/
def findAllLoop (r : RE) : Nat → Option Char → List Char → Nat → List (Nat × Nat × Caps)
  | 0, _, _, _ => []
  | fuel + 1, prev, rest, i =>
    match searchStep r prev rest i with
    | none => []
    | some (st, en, cp) =>
      let nx := if st < en then en else en + 1
      if nx - i ≤ rest.length then
        let c2 := listAdv prev rest (nx - i)
        (st, en, cp) :: findAllLoop r fuel c2.1 c2.2 nx
      else [(st, en, cp)]

def reFindAll (r : RE) (s : List Char) : List (Nat × Nat × Caps) :=
  findAllLoop r (s.length + 2) none s 0

/-- Python `m.group(g)` span lookup (first hit is the last one recorded). -/
def capLookup (cp : Caps) (g : Nat) : Option (Nat × Nat) :=
  match cp.find? (fun t => t.1 == g) with
  | some t => some t.2
  | none => none

/-- Python `m.group(g)` text, sliced from the subject. -/
def grpTxt (s : List Char) (cp : Caps) (g : Nat) : Option (List Char) :=
  (capLookup cp g).map (fun ab => (s.drop ab.1).take (ab.2 - ab.1))

/-! ### Pattern transcriptions

Each `RE` below transcribes one regular-expression literal of
`src/extract.py`, construct by construct. -/

def rchar (c : Char) : RE :=
  .cls (fun x => x == c)

def rstr : List Char → RE
  | [] => .eps
  | c :: cs => .cat (rchar c) (rstr cs)

/-- Greedy `+`. -/
def rplus (r : RE) : RE :=
  .cat r (.star r)

/-- Lazy `+?`. -/
def rplusL (r : RE) : RE :=
  .cat r (.starL r)

/-- Greedy `?`. -/
def ropt (r : RE) : RE :=
  .alt r .eps

def catL (l : List RE) : RE :=
  l.foldr .cat .eps

def wsC : RE := .cls isPySpace
def digC : RE := .cls Char.isDigit
def wordC : RE := .cls isWordChar
def wordSpaceC : RE := .cls (fun c => isWordChar c || isPySpace c)
def numTokC : RE := .cls (fun c => c == '-' || c.isDigit || c == '.')
def posTokC : RE := .cls (fun c => c.isDigit || c == '.')
def slashTokC : RE := .cls (fun c => c.isDigit || c == '/')
def anyC : RE := .cls (fun c => !(c == '\n'))

/-- `^\d+\.\s+Source:\s+(.+)$` (MULTILINE). -/
def srcHeaderPat : RE :=
  catL [.bolM, rplus digC, rchar '.', rplus wsC, rstr (lc ("Source:")), rplus wsC,
    .grp 1 (rplus anyC), .eolM]

/-- `^\d+\.\s+Group:\s+(.+)$` (MULTILINE). -/
def grpHeaderPat : RE :=
  catL [.bolM, rplus digC, rchar '.', rplus wsC, rstr (lc ("Group:")), rplus wsC,
    .grp 1 (rplus anyC), .eolM]

/-- `\d+\.\s+Source:\s+<escaped name>` (no anchors, `re.escape` makes the
name a literal). -/
def srcPatFor (name : List Char) : RE :=
  catL [rplus digC, rchar '.', rplus wsC, rstr (lc ("Source:")), rplus wsC, rstr name]

/-- The fixed field table of `parse_physical_config`, in source order:
field name and transcribed label pattern. -/
def physFields : List (List Char × RE) :=
  [(lc ("Configuration"),
      catL [rstr (lc ("Configuration:")), .star wsC, .grp 1 (rplus anyC)]),
   (lc ("Bumper"),
      catL [rstr (lc ("Bumper:")), .star wsC, .grp 1 (rplus anyC)]),
   (lc ("# Motors"),
      catL [rstr (lc ("# motors:")), .star wsC, .grp 1 (rplus digC)]),
   (lc ("Position X (m)"),
      catL [rstr (lc ("Position (X; Y; Z, m):")), .star wsC, .grp 1 (rplus numTokC),
        rchar ';']),
   (lc ("Position Y (m)"),
      catL [rstr (lc ("Position (X; Y; Z, m):")), .star wsC, rplus numTokC, rchar ';',
        .star wsC, .grp 1 (rplus numTokC), rchar ';']),
   (lc ("Position Z (m)"),
      catL [rstr (lc ("Position (X; Y; Z, m):")), .star wsC, rplus numTokC, rchar ';',
        .star wsC, rplus numTokC, rchar ';', .star wsC, .grp 1 (rplus numTokC)]),
   (lc ("Site (°)"),
      catL [rstr (lc ("Site:")), .star wsC, .grp 1 (rplus numTokC), .star wsC, rchar '°']),
   (lc ("Azimuth (°)"),
      catL [rstr (lc ("Azimuth:")), .star wsC, .grp 1 (rplus numTokC), .star wsC, rchar '°']),
   (lc ("Bottom Elev. (m)"),
      catL [rstr (lc ("Bottom elevation:")), .star wsC, .grp 1 (rplus numTokC)]),
   (lc ("Top Site (°)"),
      catL [rstr (lc ("Top site:")), .star wsC, .grp 1 (rplus numTokC), .star wsC, rchar '°']),
   (lc ("Bottom Site (°)"),
      catL [rstr (lc ("Bottom site:")), .star wsC, .grp 1 (rplus numTokC), .star wsC,
        rchar '°']),
   (lc ("Total Weight (kg)"),
      catL [rstr (lc ("Total weight (Enclosures + Frames):")), .star wsC,
        .grp 1 (rplus posTokC)]),
   (lc ("Enclosure Wt (kg)"),
      catL [rstr (lc ("Total enclosure weight:")), .star wsC, .grp 1 (rplus posTokC)]),
   (lc ("Front Motor (kg)"),
      catL [rstr (lc ("Front motor load:")), .star wsC, .grp 1 (rplus posTokC)]),
   (lc ("Rear Motor (kg)"),
      catL [rstr (lc ("Rear motor load:")), .star wsC, .grp 1 (rplus posTokC)])]

/-- `#(\d+)\s+([\w\s]+?)\s+([\-\d.]+)\s+([\-\d.]+)\s+([\-\d.]+)\s+([\-\d.]+)\s+([\d/]+)\s*$`
(MULTILINE): the 7-column line-array-with-Panflex row. -/
def rowPat7 : RE :=
  catL [rchar '#', .grp 1 (rplus digC), rplus wsC, .grp 2 (rplusL wordSpaceC), rplus wsC,
    .grp 3 (rplus numTokC), rplus wsC, .grp 4 (rplus numTokC), rplus wsC,
    .grp 5 (rplus numTokC), rplus wsC, .grp 6 (rplus numTokC), rplus wsC,
    .grp 7 (rplus slashTokC), .star wsC, .eolM]

/-- `#(\d+)\s+([\w\s]+?)\s+([\-\d.]+)\s+([\-\d.]+)\s+([\-\d.]+)\s+([\-\d.]+)\s*$`
(MULTILINE): the 6-column plain line-array row. -/
def rowPat6 : RE :=
  catL [rchar '#', .grp 1 (rplus digC), rplus wsC, .grp 2 (rplusL wordSpaceC), rplus wsC,
    .grp 3 (rplus numTokC), rplus wsC, .grp 4 (rplus numTokC), rplus wsC,
    .grp 5 (rplus numTokC), rplus wsC, .grp 6 (rplus numTokC), .star wsC, .eolM]

/-- `#(\d+)\s+([\w]+(?:_C)?)\s+([\-\d.]+)\s+([\-\d.]+)\s+([\-\d.]+)\s*$`
(MULTILINE): the 5-column point-source row. -/
def rowPat5 : RE :=
  catL [rchar '#', .grp 1 (rplus digC), rplus wsC,
    .grp 2 (.cat (rplus wordC) (ropt (rstr (lc ("_C"))))), rplus wsC,
    .grp 3 (rplus numTokC), rplus wsC, .grp 4 (rplus numTokC), rplus wsC,
    .grp 5 (rplus numTokC), .star wsC, .eolM]

/-! ### Embedding of the parsing functions of `src/extract.py` -/

/-- Python values stored in an enclosure-row dict: `int`, `str` or `float`
entries. -/
inductive PyVal where
  | i (n : Nat)
  | s (t : List Char)
  | f (v : PyNum)
  deriving DecidableEq, Repr

abbrev Row := List (List Char × PyVal)

/-- Errors the parser can raise: `float(...)` on a token that is not a
valid float literal (Python `ValueError`), or — never reachable for these
patterns, every group of which always participates in a match — a missing
capture group. -/
inductive PErr where
  | badFloat (tok : List Char)
  | missingGroup
  deriving DecidableEq, Repr

deriving instance DecidableEq for Except

/-- `parse_physical_config`: search each labelled pattern independently,
keep the stripped first capture of each hit, in field-table order. -/
def parse_physical_config (block : List Char) : List (List Char × List Char) :=
  physFields.foldr
    (fun kv acc =>
      match reSearch kv.2 block with
      | some (_, _, cp) =>
        match grpTxt block cp 1 with
        | some v => (kv.1, pyStrip v) :: acc
        | none => acc
      | none => acc)
    []

def colsOf7 : List (List Char) :=
  [lc ("Enc #"), lc ("Type"), lc ("Angle (°)"), lc ("Site (°)"), lc ("Top Z (m)"),
   lc ("Bottom Z (m)"), lc ("Panflex")]

def colsOf6 : List (List Char) :=
  [lc ("Enc #"), lc ("Type"), lc ("Angle (°)"), lc ("Site (°)"), lc ("Top Z (m)"),
   lc ("Bottom Z (m)")]

def colsOf5 : List (List Char) :=
  [lc ("Enc #"), lc ("Type"), lc ("Site (°)"), lc ("Top Z (m)"), lc ("Bottom Z (m)")]

/-- Python `float(tok)`: the parsed value, or the `ValueError` it raises. -/
def reqFloat (g : List Char) : Except PErr PyNum :=
  match pyFloat? g with
  | none => .error (.badFloat g)
  | some f => .ok f

def buildRow7 (blk : List Char) (m : Nat × Nat × Caps) : Except PErr Row :=
  match grpTxt blk m.2.2 1, grpTxt blk m.2.2 2, grpTxt blk m.2.2 3, grpTxt blk m.2.2 4,
      grpTxt blk m.2.2 5, grpTxt blk m.2.2 6, grpTxt blk m.2.2 7 with
  | some g1, some g2, some g3, some g4, some g5, some g6, some g7 => do
    let f3 ← reqFloat g3
    let f4 ← reqFloat g4
    let f5 ← reqFloat g5
    let f6 ← reqFloat g6
    pure [(lc ("Enc #"), .i (natOfDigits g1)), (lc ("Type"), .s (pyStrip g2)),
      (lc ("Angle (°)"), .f f3), (lc ("Site (°)"), .f f4),
      (lc ("Top Z (m)"), .f f5), (lc ("Bottom Z (m)"), .f f6),
      (lc ("Panflex"), .s g7)]
  | _, _, _, _, _, _, _ => .error .missingGroup

def buildRow6 (blk : List Char) (m : Nat × Nat × Caps) : Except PErr Row :=
  match grpTxt blk m.2.2 1, grpTxt blk m.2.2 2, grpTxt blk m.2.2 3, grpTxt blk m.2.2 4,
      grpTxt blk m.2.2 5, grpTxt blk m.2.2 6 with
  | some g1, some g2, some g3, some g4, some g5, some g6 => do
    let f3 ← reqFloat g3
    let f4 ← reqFloat g4
    let f5 ← reqFloat g5
    let f6 ← reqFloat g6
    pure [(lc ("Enc #"), .i (natOfDigits g1)), (lc ("Type"), .s (pyStrip g2)),
      (lc ("Angle (°)"), .f f3), (lc ("Site (°)"), .f f4),
      (lc ("Top Z (m)"), .f f5), (lc ("Bottom Z (m)"), .f f6)]
  | _, _, _, _, _, _ => .error .missingGroup

def buildRow5 (blk : List Char) (m : Nat × Nat × Caps) : Except PErr Row :=
  match grpTxt blk m.2.2 1, grpTxt blk m.2.2 2, grpTxt blk m.2.2 3, grpTxt blk m.2.2 4,
      grpTxt blk m.2.2 5 with
  | some g1, some g2, some g3, some g4, some g5 => do
    let f3 ← reqFloat g3
    let f4 ← reqFloat g4
    let f5 ← reqFloat g5
    pure [(lc ("Enc #"), .i (natOfDigits g1)), (lc ("Type"), .s (pyStrip g2)),
      (lc ("Site (°)"), .f f3), (lc ("Top Z (m)"), .f f4),
      (lc ("Bottom Z (m)"), .f f5)]
  | _, _, _, _, _ => .error .missingGroup

def hasPanflexB (blk : List Char) : Bool :=
  (reSearch (rstr (lc ("Panflex"))) blk).isSome

def hasAnglesB (blk : List Char) : Bool :=
  (reSearch (rstr (lc ("Angles (°)"))) blk).isSome

/-- `parse_enclosure_table`: sniff the two markers, pick the row schema,
extract every matching row in document order.  A failing `float(...)`
aborts with the error Python's exception would carry. -/
def buildRows (build : Nat × Nat × Caps → Except PErr Row) :
    List (Nat × Nat × Caps) → Except PErr (List Row)
  | [] => .ok []
  | m :: ms =>
    match build m with
    | .error e => .error e
    | .ok r =>
      match buildRows build ms with
      | .error e => .error e
      | .ok rs => .ok (r :: rs)

def parse_enclosure_table (blk : List Char) :
    Except PErr (List Row × List (List Char)) :=
  if hasAnglesB blk && hasPanflexB blk then
    match buildRows (buildRow7 blk) (reFindAll rowPat7 blk) with
    | .error e => .error e
    | .ok rows => .ok (rows, colsOf7)
  else if hasAnglesB blk && !hasPanflexB blk then
    match buildRows (buildRow6 blk) (reFindAll rowPat6 blk) with
    | .error e => .error e
    | .ok rows => .ok (rows, colsOf6)
  else
    match buildRows (buildRow5 blk) (reFindAll rowPat5 blk) with
    | .error e => .error e
    | .ok rows => .ok (rows, colsOf5)

/-- The source-header matches of a document, in document order. -/
def sourceHeaderMatches (text : List Char) : List (Nat × Nat × Caps) :=
  reFindAll srcHeaderPat text

/-- Name of a source-header match: `m.group(1).strip()` (the group always
participates; the default is dead code). -/
def matchName (text : List Char) (m : Nat × Nat × Caps) : List Char :=
  pyStrip ((grpTxt text m.2.2 1).getD [])

/-- Block construction of `split_source_blocks`: each block spans from its
header's start to the next source header's start, or to end of text. -/
def blocksFromMatches (text : List Char) : List (Nat × Nat × Caps) →
    List (List Char × List Char)
  | [] => []
  | m :: rest =>
    let e := match rest.head? with
      | some m2 => m2.1
      | none => text.length
    (matchName text m, (text.drop m.1).take (e - m.1)) :: blocksFromMatches text rest

def split_source_blocks (text : List Char) : List (List Char × List Char) :=
  blocksFromMatches text (sourceHeaderMatches text)

def unknownGroupL : List Char := lc ("Unknown")

def allSentinelL : List Char := lc ("ALL")

/-- Backward scan of `get_group_for_source`: the first header in the
reversed list whose stripped, uppercased name is not `"ALL"`. -/
def firstNonAll (text : List Char) : List (Nat × Nat × Caps) → Option (List Char)
  | [] => none
  | m :: rest =>
    let nm := pyStrip ((grpTxt text m.2.2 1).getD [])
    if pyUpper nm = allSentinelL then firstNonAll text rest else some nm

/-- `get_group_for_source`: find the first occurrence of the source-header
pattern for this name, collect all group headers before it (Python passes
`endpos = m.start()`, modelled by truncating the subject), and scan them
backwards skipping the `"ALL"` sentinel. -/
def get_group_for_source (text nameL : List Char) : List Char :=
  match reSearch (srcPatFor nameL) text with
  | none => unknownGroupL
  | some (st, _, _) =>
    match firstNonAll text (reFindAll grpHeaderPat (text.take st)).reverse with
    | some nm => nm
    | none => unknownGroupL

/-! ### Canonical names and the mirror test

`get_canonical_name` applies `re.sub(r'\s+[LR]\s*(\d*)$', repl, name)` with
`repl` producing `" " + digits` when the captured digits are nonempty and
`""` otherwise, then strips.  `is_mirror` is `re.search(r'\s+R(\s+\d+)?$',
name)`.  Both are compiled by hand; each helper mirrors one sub-pattern,
including the non-MULTILINE `$` (end of input or just before a final
newline) and the greedy preference order. -/

/-- `(\d*)$`: the maximal digit run followed by the end anchor.  Returns
the captured digits and what the anchor leaves (nothing, or one final
newline). -/
def matchDigAnchor (rest : List Char) : Option (List Char × List Char) :=
  let ds := rest.takeWhile Char.isDigit
  let r := rest.dropWhile Char.isDigit
  if r = [] then some (ds, [])
  else if r = ['\n'] then some (ds, ['\n'])
  else none

/-- `\s*(\d*)$` with greedy `\s*`: consume whitespace as long as the rest
still matches, else stop the star here. -/
def matchWD : List Char → Option (List Char × List Char)
  | [] => some ([], [])
  | c :: cs =>
    if isPySpace c then
      match matchWD cs with
      | some p => some p
      | none => matchDigAnchor (c :: cs)
    else matchDigAnchor (c :: cs)

/-- `\s+[LR]\s*(\d*)$` anchored at the start of `tail`: the `[LR]` must sit
right after the maximal whitespace run (shorter runs put a whitespace
character under `[LR]` and fail). -/
def matchLR (tail : List Char) : Option (List Char × List Char) :=
  let w := tail.takeWhile isPySpace
  let rest := tail.dropWhile isPySpace
  if w = [] then none
  else
    match rest with
    | c :: cs => if c = 'L' ∨ c = 'R' then matchWD cs else none
    | [] => none

/-- The substitution of `get_canonical_name`: replace the leftmost match of
`\s+[LR]\s*(\d*)$` by `" " + digits` (or nothing when the group is empty);
the at most one character the anchor leaves cannot start another match. -/
def canonSub : List Char → List Char
  | [] => []
  | c :: cs =>
    match matchLR (c :: cs) with
    | some (ds, rem) => (if ds = [] then [] else ' ' :: ds) ++ rem
    | none => c :: canonSub cs

def get_canonical_name (s : List Char) : List Char :=
  pyStrip (canonSub s)

/-- `(\s+\d+)?$`: try the greedy optional group, then the bare anchor. -/
def mirrorTail (rest : List Char) : Bool :=
  (let w := rest.takeWhile isPySpace
   let r := rest.dropWhile isPySpace
   if w = [] then false
   else
     let ds := r.takeWhile Char.isDigit
     let r2 := r.dropWhile Char.isDigit
     !ds.isEmpty && (r2 = [] || r2 = ['\n']))
  || (rest = [] || rest = ['\n'])

/-- `\s+R(\s+\d+)?$` anchored at the start of `tail`. -/
def mirrorAt (tail : List Char) : Bool :=
  let w := tail.takeWhile isPySpace
  let rest := tail.dropWhile isPySpace
  if w = [] then false
  else
    match rest with
    | c :: cs => if c = 'R' then mirrorTail cs else false
    | [] => false

/-- `is_mirror`: `re.search` tries every start position left to right. -/
def is_mirror : List Char → Bool
  | [] => false
  | c :: cs => mirrorAt (c :: cs) || is_mirror cs

/-! ### The fingerprint -/

/-- Strict lexicographic order on strings by Unicode scalar value, Python's
`<` on `str`. -/
def strLtB : List Char → List Char → Bool
  | _, [] => false
  | [], _ :: _ => true
  | a :: as, b :: bs => if a < b then true else if a = b then strLtB as bs else false

def strLeB (a b : List Char) : Bool :=
  strLtB a b || a = b

/-- Python's `<=` on pairs as `sorted` uses it: lexicographic, first
component by `strLtB`, ties by the second component's order. -/
def pairLeStr (x y : List Char × List Char) : Bool :=
  strLtB x.1 y.1 || (x.1 = y.1 && strLeB x.2 y.2)

def pairLeNat (x y : List Char × Nat) : Bool :=
  strLtB x.1 y.1 || (x.1 = y.1 && x.2.ble y.2)

def physRel (a b : List Char × List Char) : Prop :=
  pairLeStr a b = true

instance : DecidableRel physRel := fun a b => decEq (pairLeStr a b) true

def encRel (a b : List Char × Nat) : Prop :=
  pairLeNat a b = true

instance : DecidableRel encRel := fun a b => decEq (pairLeNat a b) true

/-- Insertion-order deduplication (the distinct keys of a Python `Counter`
in first-occurrence order). -/
def firstDedupGo (seen : List (List Char)) : List (List Char) → List (List Char)
  | [] => []
  | t :: ts => if t ∈ seen then firstDedupGo seen ts else t :: firstDedupGo (t :: seen) ts

def firstDedup (l : List (List Char)) : List (List Char) :=
  firstDedupGo [] l

/-- Number of occurrences of a label. -/
def countOcc (t : List Char) (l : List (List Char)) : Nat :=
  l.countP (fun x => decide (x = t))

/-- `Counter(types).items()`: each distinct label with its count, in
first-occurrence order (Python dict order). -/
def counterPairs (types : List (List Char)) : List (List Char × Nat) :=
  (firstDedup types).map (fun t => (t, countOcc t types))

/-- The `e["Type"]` lookup of `source_fingerprint` (a `KeyError` is
impossible for rows the extractor builds; the default is dead code). -/
def rowType (r : Row) : List Char :=
  match r.find? (fun kv => kv.1 == lc ("Type")) with
  | some (_, .s t) => t
  | _ => []

/-- The per-entry normalisation of `source_fingerprint`: for the two
sign-sensitive fields replace a parsing value by `str(abs(float(v)))`,
leave everything else (including unparseable values) unchanged. -/
def fpNorm (kv : List Char × List Char) : List Char × List Char :=
  if kv.1 = lc ("Position X (m)") ∨ kv.1 = lc ("Azimuth (°)") then
    match pyFloat? kv.2 with
    | some n => (kv.1, pyReprOf (pyAbs n))
    | none => kv
  else kv

/-- `source_fingerprint(physical, enclosures)`:
`(tuple(sorted(normalised.items())), tuple(sorted(Counter(types).items())))`. -/
def source_fingerprint (physical : List (List Char × List Char)) (enclosures : List Row) :
    List (List Char × List Char) × List (List Char × Nat) :=
  (List.insertionSort physRel (physical.map fpNorm),
   List.insertionSort encRel (counterPairs (enclosures.map rowType)))

/-! ### The document assembler -/

structure SrcRec where
  name : List Char
  physical : List (List Char × List Char)
  enclosures : List Row
  columns : List (List Char)
  deriving DecidableEq, Repr

abbrev GroupsT := List (List Char × List SrcRec)

def recFp (s : SrcRec) : List (List Char × List Char) × List (List Char × Nat) :=
  source_fingerprint s.physical s.enclosures

/-- Python `groups.get(group, [])` on the insertion-ordered dict. -/
def lookupGroup (gs : GroupsT) (g : List Char) : List SrcRec :=
  match gs.find? (fun p => p.1 == g) with
  | some p => p.2
  | none => []

/-- `groups[group].append(entry)`, creating the entry on first use (at the
end, as dict insertion order does). -/
def appendToGroup (gs : GroupsT) (g : List Char) (r : SrcRec) : GroupsT :=
  if gs.any (fun p => p.1 == g) then
    gs.map (fun p => if p.1 == g then (p.1, p.2 ++ [r]) else p)
  else gs ++ [(g, [r])]

/-- The loop body of `parse_document` over the remaining blocks. -/
def parseDocGo (text : List Char) : List (List Char × List Char) → GroupsT →
    Except PErr GroupsT
  | [], acc => .ok acc
  | (nm, blk) :: rest, acc =>
    let g := get_group_for_source text nm
    let physical := parse_physical_config blk
    match parse_enclosure_table blk with
    | .error e => .error e
    | .ok (encs, cols) =>
      let fp := source_fingerprint physical encs
      if (lookupGroup acc g).any (fun s => decide (recFp s = fp)) then
        parseDocGo text rest acc
      else
        parseDocGo text rest
          (appendToGroup acc g ⟨get_canonical_name nm, physical, encs, cols⟩)

def parse_document (text : List Char) : Except PErr GroupsT :=
  parseDocGo text (split_source_blocks text) []

/-! ### Order properties of the sort keys -/

theorem strLtB_cons_iff {x y : Char} {xs ys : List Char} :
    strLtB (x :: xs) (y :: ys) = true ↔ (x < y ∨ (x = y ∧ strLtB xs ys = true)) := by
  simp only [strLtB]
  split_ifs with h1 h2
  · simp [h1]
  · simp [h1, h2]
  · simp [h1, h2]

theorem strLtB_asymm {a b : List Char} (h1 : strLtB a b = true) (h2 : strLtB b a = true) :
    False := by
  induction a generalizing b with
  | nil =>
    cases b with
    | nil => simp [strLtB] at h1
    | cons y ys => simp [strLtB] at h2
  | cons x xs ih =>
    cases b with
    | nil => simp [strLtB] at h1
    | cons y ys =>
      rcases strLtB_cons_iff.mp h1 with hxy | ⟨hxy, hr1⟩
      · rcases strLtB_cons_iff.mp h2 with hyx | ⟨hyx, hr2⟩
        · exact absurd (lt_trans hxy hyx) (lt_irrefl x)
        · exact absurd (hyx ▸ hxy) (lt_irrefl y)
      · subst hxy
        rcases strLtB_cons_iff.mp h2 with hyx | ⟨_, hr2⟩
        · exact absurd hyx (lt_irrefl x)
        · exact ih hr1 hr2

theorem strLtB_trans {a b c : List Char} (h1 : strLtB a b = true) (h2 : strLtB b c = true) :
    strLtB a c = true := by
  induction a generalizing b c with
  | nil =>
    cases b with
    | nil => simp [strLtB] at h1
    | cons y ys =>
      cases c with
      | nil => simp [strLtB] at h2
      | cons z zs => simp [strLtB]
  | cons x xs ih =>
    cases b with
    | nil => simp [strLtB] at h1
    | cons y ys =>
      cases c with
      | nil => simp [strLtB] at h2
      | cons z zs =>
        rcases strLtB_cons_iff.mp h1 with hxy | ⟨hxy, hr1⟩
        · rcases strLtB_cons_iff.mp h2 with hyz | ⟨hyz, hr2⟩
          · exact strLtB_cons_iff.mpr (Or.inl (lt_trans hxy hyz))
          · exact strLtB_cons_iff.mpr (Or.inl (hyz ▸ hxy))
        · subst hxy
          rcases strLtB_cons_iff.mp h2 with hyz | ⟨hyz, hr2⟩
          · exact strLtB_cons_iff.mpr (Or.inl hyz)
          · exact strLtB_cons_iff.mpr (Or.inr ⟨hyz, ih hr1 hr2⟩)

theorem strLtB_total (a b : List Char) :
    strLtB a b = true ∨ strLtB b a = true ∨ a = b := by
  induction a generalizing b with
  | nil =>
    cases b with
    | nil => right; right; rfl
    | cons y ys => left; simp [strLtB]
  | cons x xs ih =>
    cases b with
    | nil => right; left; simp [strLtB]
    | cons y ys =>
      rcases lt_trichotomy x y with hxy | hxy | hxy
      · exact Or.inl (strLtB_cons_iff.mpr (Or.inl hxy))
      · subst hxy
        rcases ih ys with h | h | h
        · exact Or.inl (strLtB_cons_iff.mpr (Or.inr ⟨rfl, h⟩))
        · exact Or.inr (Or.inl (strLtB_cons_iff.mpr (Or.inr ⟨rfl, h⟩)))
        · exact Or.inr (Or.inr (h ▸ rfl))
      · exact Or.inr (Or.inl (strLtB_cons_iff.mpr (Or.inl hxy)))

theorem strLeB_trans {a b c : List Char} (h1 : strLeB a b = true) (h2 : strLeB b c = true) :
    strLeB a c = true := by
  simp only [strLeB, Bool.or_eq_true, decide_eq_true_eq] at h1 h2 ⊢
  rcases h1 with h1 | h1
  · rcases h2 with h2 | h2
    · exact Or.inl (strLtB_trans h1 h2)
    · subst h2; exact Or.inl h1
  · subst h1; exact h2

theorem strLeB_antisymm {a b : List Char} (h1 : strLeB a b = true) (h2 : strLeB b a = true) :
    a = b := by
  simp only [strLeB, Bool.or_eq_true, decide_eq_true_eq] at h1 h2
  rcases h1 with h1 | h1
  · rcases h2 with h2 | h2
    · exact (strLtB_asymm h1 h2).elim
    · exact h2.symm
  · exact h1

theorem strLeB_total (a b : List Char) : strLeB a b = true ∨ strLeB b a = true := by
  simp only [strLeB, Bool.or_eq_true, decide_eq_true_eq]
  rcases strLtB_total a b with h | h | h
  · exact Or.inl (Or.inl h)
  · exact Or.inr (Or.inl h)
  · exact Or.inl (Or.inr h)

theorem physRel_total : ∀ a b, physRel a b ∨ physRel b a := by
  intro a b
  simp only [physRel, pairLeStr, Bool.or_eq_true, Bool.and_eq_true, decide_eq_true_eq]
  rcases strLtB_total a.1 b.1 with h | h | h
  · exact Or.inl (Or.inl h)
  · exact Or.inr (Or.inl h)
  · rcases strLeB_total a.2 b.2 with h2 | h2
    · exact Or.inl (Or.inr ⟨h, h2⟩)
    · exact Or.inr (Or.inr ⟨h.symm, h2⟩)

theorem physRel_trans : ∀ a b c, physRel a b → physRel b c → physRel a c := by
  intro a b c h1 h2
  simp only [physRel, pairLeStr, Bool.or_eq_true, Bool.and_eq_true, decide_eq_true_eq]
    at h1 h2 ⊢
  rcases h1 with h1 | ⟨h1e, h1v⟩
  · rcases h2 with h2 | ⟨h2e, h2v⟩
    · exact Or.inl (strLtB_trans h1 h2)
    · exact Or.inl (h2e ▸ h1)
  · rcases h2 with h2 | ⟨h2e, h2v⟩
    · exact Or.inl (h1e ▸ h2)
    · exact Or.inr ⟨h1e.trans h2e, strLeB_trans h1v h2v⟩

theorem physRel_antisymm : ∀ a b, physRel a b → physRel b a → a = b := by
  intro a b h1 h2
  simp only [physRel, pairLeStr, Bool.or_eq_true, Bool.and_eq_true, decide_eq_true_eq]
    at h1 h2
  rcases h1 with h1 | ⟨h1e, h1v⟩
  · rcases h2 with h2 | ⟨h2e, h2v⟩
    · exact (strLtB_asymm h1 h2).elim
    · exact (strLtB_asymm (h2e ▸ h1) (h2e ▸ h1)).elim
  · rcases h2 with h2 | ⟨h2e, h2v⟩
    · exact (strLtB_asymm (h1e ▸ h2) (h1e ▸ h2)).elim
    · exact Prod.ext h1e (strLeB_antisymm h1v h2v)

theorem natBle_total (a b : Nat) : a.ble b = true ∨ b.ble a = true := by
  rcases Nat.le_total a b with h | h
  · exact Or.inl (Nat.ble_eq.mpr h)
  · exact Or.inr (Nat.ble_eq.mpr h)

theorem encRel_total : ∀ a b, encRel a b ∨ encRel b a := by
  intro a b
  simp only [encRel, pairLeNat, Bool.or_eq_true, Bool.and_eq_true, decide_eq_true_eq]
  rcases strLtB_total a.1 b.1 with h | h | h
  · exact Or.inl (Or.inl h)
  · exact Or.inr (Or.inl h)
  · rcases natBle_total a.2 b.2 with h2 | h2
    · exact Or.inl (Or.inr ⟨h, h2⟩)
    · exact Or.inr (Or.inr ⟨h.symm, h2⟩)

theorem encRel_trans : ∀ a b c, encRel a b → encRel b c → encRel a c := by
  intro a b c h1 h2
  simp only [encRel, pairLeNat, Bool.or_eq_true, Bool.and_eq_true, decide_eq_true_eq]
    at h1 h2 ⊢
  rcases h1 with h1 | ⟨h1e, h1v⟩
  · rcases h2 with h2 | ⟨h2e, h2v⟩
    · exact Or.inl (strLtB_trans h1 h2)
    · exact Or.inl (h2e ▸ h1)
  · rcases h2 with h2 | ⟨h2e, h2v⟩
    · exact Or.inl (h1e ▸ h2)
    · exact Or.inr ⟨h1e.trans h2e, Nat.ble_eq.mpr (Nat.le_trans (Nat.ble_eq.mp h1v)
        (Nat.ble_eq.mp h2v))⟩

theorem encRel_antisymm : ∀ a b, encRel a b → encRel b a → a = b := by
  intro a b h1 h2
  simp only [encRel, pairLeNat, Bool.or_eq_true, Bool.and_eq_true, decide_eq_true_eq]
    at h1 h2
  rcases h1 with h1 | ⟨h1e, h1v⟩
  · rcases h2 with h2 | ⟨h2e, h2v⟩
    · exact (strLtB_asymm h1 h2).elim
    · exact (strLtB_asymm (h2e ▸ h1) (h2e ▸ h1)).elim
  · rcases h2 with h2 | ⟨h2e, h2v⟩
    · exact (strLtB_asymm (h1e ▸ h2) (h1e ▸ h2)).elim
    · exact Prod.ext h1e (Nat.le_antisymm (Nat.ble_eq.mp h1v) (Nat.ble_eq.mp h2v))

/-! ### Multiset behaviour of the enclosure component -/

theorem firstDedupGo_mem {seen l : List (List Char)} {x : List Char} :
    x ∈ firstDedupGo seen l ↔ (x ∈ l ∧ x ∉ seen) := by
  induction l generalizing seen with
  | nil => simp [firstDedupGo]
  | cons t ts ih =>
    by_cases h : t ∈ seen
    · rw [show firstDedupGo seen (t :: ts) = firstDedupGo seen ts from by
        simp [firstDedupGo, h], ih]
      constructor
      · rintro ⟨h1, h2⟩
        exact ⟨List.mem_cons_of_mem t h1, h2⟩
      · rintro ⟨h1, h2⟩
        rcases List.mem_cons.mp h1 with rfl | h1
        · exact absurd h h2
        · exact ⟨h1, h2⟩
    · rw [show firstDedupGo seen (t :: ts) = t :: firstDedupGo (t :: seen) ts from by
        simp [firstDedupGo, h]]
      constructor
      · intro hx
        rcases List.mem_cons.mp hx with rfl | hx
        · exact ⟨List.mem_cons_self x ts, h⟩
        · obtain ⟨h1, h2⟩ := ih.mp hx
          exact ⟨List.mem_cons_of_mem t h1, fun hc => h2 (List.mem_cons_of_mem t hc)⟩
      · rintro ⟨h1, h2⟩
        rcases List.mem_cons.mp h1 with rfl | h1
        · exact List.mem_cons_self x _
        · by_cases hxt : x = t
          · exact hxt ▸ List.mem_cons_self t _
          · exact List.mem_cons_of_mem t (ih.mpr ⟨h1, fun hc =>
              (List.mem_cons.mp hc).elim hxt h2⟩)

theorem firstDedupGo_nodup {seen l : List (List Char)} :
    (firstDedupGo seen l).Nodup := by
  induction l generalizing seen with
  | nil => simp [firstDedupGo]
  | cons t ts ih =>
    by_cases h : t ∈ seen
    · rw [show firstDedupGo seen (t :: ts) = firstDedupGo seen ts from by
        simp [firstDedupGo, h]]
      exact ih
    · rw [show firstDedupGo seen (t :: ts) = t :: firstDedupGo (t :: seen) ts from by
        simp [firstDedupGo, h]]
      refine List.nodup_cons.mpr ⟨?_, ih⟩
      intro hmem
      exact (firstDedupGo_mem.mp hmem).2 (List.mem_cons_self t seen)

theorem firstDedup_mem {l : List (List Char)} {x : List Char} :
    x ∈ firstDedup l ↔ x ∈ l := by
  simp [firstDedup, firstDedupGo_mem]

theorem firstDedup_nodup {l : List (List Char)} : (firstDedup l).Nodup :=
  firstDedupGo_nodup

theorem countOcc_eq_zero {l : List (List Char)} {a : List Char} (h : a ∉ l) :
    countOcc a l = 0 := by
  simp only [countOcc]
  rw [List.countP_eq_zero]
  intro x hx
  simp only [decide_eq_true_eq]
  exact fun he => h (he ▸ hx)

theorem firstDedup_perm {l l' : List (List Char)} (h : l.Perm l') :
    (firstDedup l).Perm (firstDedup l') := by
  refine (List.perm_ext_iff_of_nodup firstDedup_nodup firstDedup_nodup).mpr (fun a => ?_)
  rw [firstDedup_mem, firstDedup_mem]
  exact h.mem_iff

theorem counterPairs_perm {l l' : List (List Char)} (h : l.Perm l') :
    (counterPairs l).Perm (counterPairs l') := by
  have hfun : (fun t => (t, countOcc t l)) = (fun t => (t, countOcc t l')) := by
    funext t
    rw [show countOcc t l = countOcc t l' from h.countP_eq _]
  unfold counterPairs
  rw [hfun]
  exact (firstDedup_perm h).map _

/-! ### Claim C2 -/

/-- C2: fingerprint equality is symmetric under sign flip of
`"Position X (m)"` and `"Azimuth (°)"` (instantiated, as the claim does, at
`"1.5"`/`"30"` versus `"-1.5"`/`"-30"` with every other field and the
enclosures arbitrary but identical); a value of those two fields that does
not parse as a number is kept as the original string by the fingerprint's
normalisation; and the fingerprint is invariant under any permutation of
the enclosure list, its enclosure component being the sorted multiset of
type labels with counts. -/
theorem claim2_fingerprint_props :
    (∀ (pre mid post : List (List Char × List Char)) (enc : List Row),
      source_fingerprint
          (pre ++ (lc ("Position X (m)"), lc ("1.5")) :: mid ++
            (lc ("Azimuth (°)"), lc ("30")) :: post) enc =
        source_fingerprint
          (pre ++ (lc ("Position X (m)"), lc ("-1.5")) :: mid ++
            (lc ("Azimuth (°)"), lc ("-30")) :: post) enc) ∧
    (∀ k v, (k = lc ("Position X (m)") ∨ k = lc ("Azimuth (°)")) → pyFloat? v = none →
      fpNorm (k, v) = (k, v)) ∧
    (∀ (physical : List (List Char × List Char)) (enc enc' : List Row),
      enc.Perm enc' → source_fingerprint physical enc = source_fingerprint physical enc') := by
  refine ⟨?_, ?_, ?_⟩
  · intro pre mid post enc
    have e1 : fpNorm (lc ("Position X (m)"), lc ("1.5")) =
        fpNorm (lc ("Position X (m)"), lc ("-1.5")) := by decide
    have e2 : fpNorm (lc ("Azimuth (°)"), lc ("30")) =
        fpNorm (lc ("Azimuth (°)"), lc ("-30")) := by decide
    simp [source_fingerprint, List.map_append, e1, e2]
  · intro k v hk hv
    simp only [fpNorm]
    rw [if_pos hk, hv]
  · intro physical enc enc' hperm
    have hp : (counterPairs (enc.map rowType)).Perm (counterPairs (enc'.map rowType)) :=
      counterPairs_perm (hperm.map rowType)
    haveI : IsTotal (List Char × Nat) encRel := ⟨encRel_total⟩
    haveI : IsTrans (List Char × Nat) encRel := ⟨fun _ _ _ => encRel_trans _ _ _⟩
    haveI : IsAntisymm (List Char × Nat) encRel := ⟨fun _ _ => encRel_antisymm _ _⟩
    have hs : List.insertionSort encRel (counterPairs (enc.map rowType)) =
        List.insertionSort encRel (counterPairs (enc'.map rowType)) :=
      List.eq_of_perm_of_sorted
        (((List.perm_insertionSort encRel _).trans hp).trans
          (List.perm_insertionSort encRel _).symm)
        (List.sorted_insertionSort encRel _) (List.sorted_insertionSort encRel _)
    unfold source_fingerprint
    rw [hs]

/-- Witness for C2 at concrete inputs. -/
theorem claim2_fingerprint_props_witness :
    (fpNorm (lc ("Position X (m)"), lc ("x?")) = (lc ("Position X (m)"), lc ("x?"))) ∧
    (source_fingerprint []
        [[(lc ("Type"), PyVal.s (lc ("A")))], [(lc ("Type"), PyVal.s (lc ("B")))]] =
      source_fingerprint []
        [[(lc ("Type"), PyVal.s (lc ("B")))], [(lc ("Type"), PyVal.s (lc ("A")))]]) ∧
    (source_fingerprint [(lc ("Position X (m)"), lc ("1.5")), (lc ("Azimuth (°)"), lc ("30"))]
        [] =
      source_fingerprint
        [(lc ("Position X (m)"), lc ("-1.5")), (lc ("Azimuth (°)"), lc ("-30"))] []) := by
  refine ⟨?_, ?_, ?_⟩
  · exact claim2_fingerprint_props.2.1 _ _ (Or.inl rfl) (by decide)
  · exact claim2_fingerprint_props.2.2 _ _ _
      (List.Perm.swap [(lc ("Type"), PyVal.s (lc ("B")))] [(lc ("Type"), PyVal.s (lc ("A")))] [])
  · exact claim2_fingerprint_props.1 [] [] [] []

/-! ### Structural facts about the matcher -/

def capKeys (cp : Caps) : List Nat :=
  cp.map (fun t => t.1)

/-- Syntactic under-approximation of "group `g` participates in every match
of `r`": true only outside repetition and only when both alternatives (or
the pattern itself) bind it.  All capture groups of the patterns above sit
in plain concatenations, where this predicate holds. -/
def sureB : RE → Nat → Bool
  | .eps, _ => false
  | .cls _, _ => false
  | .cat a b, g => sureB a g || sureB b g
  | .alt a b, g => sureB a g && sureB b g
  | .star _, _ => false
  | .starL _, _ => false
  | .grp n r, g => (n == g) || sureB r g
  | .bolM, _ => false
  | .eolM, _ => false
  | .eosN, _ => false

/-- Factoring lemma: a successful run of the matcher is a call of the
continuation at some later position; the consumed length is accounted for,
captures only grow, and surely-captured groups are present. -/
theorem reM_factor :
    ∀ (fuel : Nat) (r : RE) (prev : Option Char) (rest : List Char) (i : Nat) (caps : Caps)
      (k : ReK) (res : Nat × Caps),
      reM fuel r prev rest i caps k = some res →
      ∃ p2 r2 j c2, k p2 r2 j c2 = some res ∧ i ≤ j ∧ j + r2.length = i + rest.length ∧
        (∀ g, g ∈ capKeys caps → g ∈ capKeys c2) ∧
        (∀ g, sureB r g = true → g ∈ capKeys c2) := by
  intro fuel
  induction fuel with
  | zero =>
    intro r prev rest i caps k res h
    simp [reM] at h
  | succ fuel ih =>
    intro r prev rest i caps k res h
    cases r with
    | eps =>
      exact ⟨prev, rest, i, caps, h, le_refl i, rfl, fun g hg => hg, fun g hg => by
        simp [sureB] at hg⟩
    | cls p =>
      cases rest with
      | nil => simp [reM] at h
      | cons c rest2 =>
        simp only [reM] at h
        by_cases hpc : p c = true
        · rw [if_pos hpc] at h
          refine ⟨some c, rest2, i + 1, caps, h, Nat.le_succ i, by simp; omega,
            fun g hg => hg, fun g hg => by simp [sureB] at hg⟩
        · rw [if_neg hpc] at h
          cases h
    | cat a b =>
      simp only [reM] at h
      obtain ⟨p2, r2, j, c2, hk, hij, hlen, hmono, hsure⟩ := ih a prev rest i caps _ res h
      obtain ⟨p3, r3, j2, c3, hk2, hij2, hlen2, hmono2, hsure2⟩ := ih b p2 r2 j c2 k res hk
      refine ⟨p3, r3, j2, c3, hk2, le_trans hij hij2, by omega,
        fun g hg => hmono2 g (hmono g hg), fun g hg => ?_⟩
      simp only [sureB, Bool.or_eq_true] at hg
      rcases hg with hg | hg
      · exact hmono2 g (hsure g hg)
      · exact hsure2 g hg
    | alt a b =>
      simp only [reM] at h
      cases ha : reM fuel a prev rest i caps k with
      | some res' =>
        rw [ha] at h
        cases h
        obtain ⟨p2, r2, j, c2, hk, hij, hlen, hmono, hsure⟩ := ih a prev rest i caps k res ha
        refine ⟨p2, r2, j, c2, hk, hij, hlen, hmono, fun g hg => ?_⟩
        simp only [sureB, Bool.and_eq_true] at hg
        exact hsure g hg.1
      | none =>
        rw [ha] at h
        obtain ⟨p2, r2, j, c2, hk, hij, hlen, hmono, hsure⟩ := ih b prev rest i caps k res h
        refine ⟨p2, r2, j, c2, hk, hij, hlen, hmono, fun g hg => ?_⟩
        simp only [sureB, Bool.and_eq_true] at hg
        exact hsure g hg.2
    | star r1 =>
      simp only [reM] at h
      cases ha : reM fuel r1 prev rest i caps
          (fun p2 r2 j c2 => if i < j then reM fuel (.star r1) p2 r2 j c2 k else none) with
      | some res' =>
        rw [ha] at h
        cases h
        obtain ⟨p2, r2, j, c2, hk, hij, hlen, hmono, _⟩ := ih r1 prev rest i caps _ res ha
        by_cases hij' : i < j
        · rw [if_pos hij'] at hk
          obtain ⟨p3, r3, j2, c3, hk2, hij2, hlen2, hmono2, _⟩ :=
            ih (.star r1) p2 r2 j c2 k res hk
          exact ⟨p3, r3, j2, c3, hk2, le_trans hij hij2, by omega,
            fun g hg => hmono2 g (hmono g hg), fun g hg => by simp [sureB] at hg⟩
        · rw [if_neg hij'] at hk
          cases hk
      | none =>
        rw [ha] at h
        exact ⟨prev, rest, i, caps, h, le_refl i, rfl, fun g hg => hg, fun g hg => by
          simp [sureB] at hg⟩
    | starL r1 =>
      simp only [reM] at h
      cases ha : k prev rest i caps with
      | some res' =>
        rw [ha] at h
        cases h
        exact ⟨prev, rest, i, caps, ha, le_refl i, rfl, fun g hg => hg, fun g hg => by
          simp [sureB] at hg⟩
      | none =>
        rw [ha] at h
        obtain ⟨p2, r2, j, c2, hk, hij, hlen, hmono, _⟩ := ih r1 prev rest i caps _ res h
        by_cases hij' : i < j
        · rw [if_pos hij'] at hk
          obtain ⟨p3, r3, j2, c3, hk2, hij2, hlen2, hmono2, _⟩ :=
            ih (.starL r1) p2 r2 j c2 k res hk
          exact ⟨p3, r3, j2, c3, hk2, le_trans hij hij2, by omega,
            fun g hg => hmono2 g (hmono g hg), fun g hg => by simp [sureB] at hg⟩
        · rw [if_neg hij'] at hk
          cases hk
    | grp n r1 =>
      simp only [reM] at h
      obtain ⟨p2, r2, j, c2, hk, hij, hlen, hmono, hsure⟩ := ih r1 prev rest i caps _ res h
      refine ⟨p2, r2, j, (n, i, j) :: c2, hk, hij, hlen,
        fun g hg => List.mem_cons_of_mem _ (hmono g hg), fun g hg => ?_⟩
      simp only [sureB, Bool.or_eq_true, beq_iff_eq] at hg
      rcases hg with rfl | hg
      · exact List.mem_cons_self _ _
      · exact List.mem_cons_of_mem _ (hsure g hg)
    | bolM =>
      simp only [reM] at h
      by_cases hc : prev = none ∨ prev = some '\n'
      · rw [if_pos hc] at h
        exact ⟨prev, rest, i, caps, h, le_refl i, rfl, fun g hg => hg, fun g hg => by
          simp [sureB] at hg⟩
      · rw [if_neg hc] at h
        cases h
    | eolM =>
      simp only [reM] at h
      by_cases hc : rest = [] ∨ rest.head? = some '\n'
      · rw [if_pos hc] at h
        exact ⟨prev, rest, i, caps, h, le_refl i, rfl, fun g hg => hg, fun g hg => by
          simp [sureB] at hg⟩
      · rw [if_neg hc] at h
        cases h
    | eosN =>
      simp only [reM] at h
      by_cases hc : rest = [] ∨ rest = ['\n']
      · rw [if_pos hc] at h
        exact ⟨prev, rest, i, caps, h, le_refl i, rfl, fun g hg => hg, fun g hg => by
          simp [sureB] at hg⟩
      · rw [if_neg hc] at h
        cases h

theorem searchStep_bounds (r : RE) :
    ∀ (rest : List Char) (prev : Option Char) (i st en : Nat) (cp : Caps),
      searchStep r prev rest i = some (st, en, cp) →
      i ≤ st ∧ st ≤ en ∧ en ≤ i + rest.length ∧
        (∀ g, sureB r g = true → g ∈ capKeys cp) := by
  intro rest
  induction rest with
  | nil =>
    intro prev i st en cp h
    simp only [searchStep] at h
    cases hm : reM FUEL r prev [] i [] kTop with
    | none => rw [hm] at h; cases h
    | some jc =>
      rw [hm] at h
      cases h
      obtain ⟨p2, r2, j, c2, hk, hij, hlen, _, hsure⟩ :=
        reM_factor FUEL r prev [] i [] kTop jc hm
      simp only [kTop] at hk
      cases hk
      refine ⟨le_refl _, hij, by simp at hlen ⊢; omega, hsure⟩
  | cons ch rest2 ih =>
    intro prev i st en cp h
    simp only [searchStep] at h
    cases hm : reM FUEL r prev (ch :: rest2) i [] kTop with
    | none =>
      rw [hm] at h
      obtain ⟨h1, h2, h3, h4⟩ := ih (some ch) (i + 1) st en cp h
      exact ⟨le_trans (Nat.le_succ i) h1, h2, by simp; omega, h4⟩
    | some jc =>
      rw [hm] at h
      cases h
      obtain ⟨p2, r2, j, c2, hk, hij, hlen, _, hsure⟩ :=
        reM_factor FUEL r prev (ch :: rest2) i [] kTop jc hm
      simp only [kTop] at hk
      cases hk
      refine ⟨le_refl _, hij, by omega, hsure⟩

theorem listAdv_len :
    ∀ (n : Nat) (p : Option Char) (rest : List Char), n ≤ rest.length →
      (listAdv p rest n).2.length = rest.length - n := by
  intro n
  induction n with
  | zero => intro p rest _; simp [listAdv]
  | succ n ih =>
    intro p rest hle
    cases rest with
    | nil => simp at hle
    | cons c cs =>
      simp only [listAdv]
      rw [ih (some c) cs (by simpa using hle)]
      simp

theorem findAllLoop_bounds (r : RE) :
    ∀ (fuel : Nat) (prev : Option Char) (rest : List Char) (i : Nat),
      ∀ m ∈ findAllLoop r fuel prev rest i,
        i ≤ m.1 ∧ m.1 ≤ m.2.1 ∧ m.2.1 ≤ i + rest.length ∧
          (∀ g, sureB r g = true → g ∈ capKeys m.2.2) := by
  intro fuel
  induction fuel with
  | zero => intro prev rest i m hm; simp [findAllLoop] at hm
  | succ fuel ih =>
    intro prev rest i m hm
    simp only [findAllLoop] at hm
    cases hs : searchStep r prev rest i with
    | none => rw [hs] at hm; simp at hm
    | some t =>
      obtain ⟨st, en, cp⟩ := t
      rw [hs] at hm
      obtain ⟨h1, h2, h3, h4⟩ := searchStep_bounds r rest prev i st en cp hs
      simp only at hm
      by_cases hnx : (if st < en then en else en + 1) - i ≤ rest.length
      · rw [if_pos hnx] at hm
        rcases List.mem_cons.mp hm with rfl | hm
        · exact ⟨h1, h2, h3, h4⟩
        · obtain ⟨g1, g2, g3, g4⟩ := ih _ _ _ m hm
          have hadv := listAdv_len ((if st < en then en else en + 1) - i) prev rest hnx
          have hnxa : st < (if st < en then en else en + 1) := by
            split
            · assumption
            · omega
          have hnxb : (if st < en then en else en + 1) ≤ en + 1 := by
            split <;> omega
          rw [hadv] at g3
          exact ⟨by omega, g2, by omega, g4⟩
      · rw [if_neg hnx] at hm
        rcases List.mem_singleton.mp hm with rfl
        exact ⟨h1, h2, h3, h4⟩

theorem findAllLoop_chain (r : RE) :
    ∀ (fuel : Nat) (prev : Option Char) (rest : List Char) (i : Nat),
      List.Chain' (fun a b => a.1 < b.1) (findAllLoop r fuel prev rest i) := by
  intro fuel
  induction fuel with
  | zero => intro prev rest i; simp [findAllLoop]
  | succ fuel ih =>
    intro prev rest i
    simp only [findAllLoop]
    cases hs : searchStep r prev rest i with
    | none => simp
    | some t =>
      obtain ⟨st, en, cp⟩ := t
      obtain ⟨h1, h2, h3, h4⟩ := searchStep_bounds r rest prev i st en cp hs
      simp only
      by_cases hnx : (if st < en then en else en + 1) - i ≤ rest.length
      · rw [if_pos hnx]
        refine List.chain'_cons'.mpr ⟨?_, ih _ _ _⟩
        intro y hy
        have hmem : y ∈ findAllLoop r fuel
            (listAdv prev rest ((if st < en then en else en + 1) - i)).1
            (listAdv prev rest ((if st < en then en else en + 1) - i)).2
            (if st < en then en else en + 1) := List.mem_of_mem_head? hy
        obtain ⟨g1, _, _, _⟩ := findAllLoop_bounds r fuel _ _ _ y hmem
        have hnxa : st < (if st < en then en else en + 1) := by
          split
          · assumption
          · omega
        omega
      · rw [if_neg hnx]
        simp

theorem reFindAll_bounds {r : RE} {s : List Char} :
    ∀ m ∈ reFindAll r s, m.1 ≤ m.2.1 ∧ m.2.1 ≤ s.length ∧
      (∀ g, sureB r g = true → g ∈ capKeys m.2.2) := by
  intro m hm
  obtain ⟨h1, h2, h3, h4⟩ := findAllLoop_bounds r (s.length + 2) none s 0 m hm
  exact ⟨h2, by simpa using h3, h4⟩

theorem reFindAll_chain {r : RE} {s : List Char} :
    List.Chain' (fun a b => a.1 < b.1) (reFindAll r s) :=
  findAllLoop_chain r (s.length + 2) none s 0

/-! ### Claim C4 -/

theorem blocksFromMatches_length (text : List Char) :
    ∀ ms : List (Nat × Nat × Caps), (blocksFromMatches text ms).length = ms.length := by
  intro ms
  induction ms with
  | nil => rfl
  | cons m rest ih => simp [blocksFromMatches, ih]

theorem blocksFromMatches_tile (text : List Char) :
    ∀ ms : List (Nat × Nat × Caps),
      List.Chain' (fun a b => a.1 < b.1) ms → (∀ m ∈ ms, m.1 ≤ text.length) →
      ((blocksFromMatches text ms).map (fun b => b.2)).flatten =
        (match ms.head? with
          | some m => text.drop m.1
          | none => ([] : List Char)) := by
  intro ms
  induction ms with
  | nil => intro _ _; rfl
  | cons m rest ih =>
    intro hchain hmem
    cases rest with
    | nil =>
      simp only [blocksFromMatches, List.head?_cons, List.head?_nil, List.map_cons,
        List.map_nil, List.flatten_cons, List.flatten_nil, List.append_nil]
      exact List.take_of_length_le (by simp [List.length_drop])
    | cons m2 rest2 =>
      have hlt : m.1 < m2.1 := (List.chain'_cons.mp hchain).1
      have hrest := ih (List.chain'_cons.mp hchain).2
        (fun x hx => hmem x (List.mem_cons_of_mem m hx))
      simp only [List.head?_cons] at hrest
      have hstep : blocksFromMatches text (m :: m2 :: rest2) =
          (matchName text m, (text.drop m.1).take (m2.1 - m.1)) ::
            blocksFromMatches text (m2 :: rest2) := by
        simp [blocksFromMatches]
      rw [hstep, List.map_cons, List.flatten_cons, hrest]
      simp only [List.head?_cons]
      have hdd : text.drop m2.1 = (text.drop m.1).drop (m2.1 - m.1) := by
        rw [List.drop_drop]
        congr 1
        omega
      rw [hdd, List.take_append_drop]

/-- C4 (amended: a span ends at the next *source* header, not at the next
numbered header of any kind): the splitter emits one `(name, span)` pair
per source-header match, in document order with strictly increasing start
positions; the spans concatenate exactly to the document from the first
header's start onward (no gaps, no overlaps); zero matches yield the empty
list. -/
theorem claim4_split_blocks (text : List Char) :
    (split_source_blocks text).length = (sourceHeaderMatches text).length ∧
    split_source_blocks text = blocksFromMatches text (sourceHeaderMatches text) ∧
    List.Chain' (fun a b => a.1 < b.1) (sourceHeaderMatches text) ∧
    (∀ m ∈ sourceHeaderMatches text, m.1 ≤ m.2.1 ∧ m.2.1 ≤ text.length) ∧
    (((split_source_blocks text).map (fun b => b.2)).flatten =
      (match (sourceHeaderMatches text).head? with
        | some m => text.drop m.1
        | none => ([] : List Char))) ∧
    (sourceHeaderMatches text = [] → split_source_blocks text = []) := by
  refine ⟨blocksFromMatches_length text _, rfl, reFindAll_chain, ?_, ?_, ?_⟩
  · intro m hm
    exact ⟨(reFindAll_bounds m hm).1, (reFindAll_bounds m hm).2.1⟩
  · exact blocksFromMatches_tile text _ reFindAll_chain
      (fun m hm => le_trans (reFindAll_bounds m hm).1 (reFindAll_bounds m hm).2.1)
  · intro h
    simp [split_source_blocks, h, blocksFromMatches]

/-- C4 counterexample to the claim as stated: in this document a group
header starts at position 13, strictly inside the first block's span — the
span runs to the next *source* header (position 25), not to the next
numbered header of any kind. -/
theorem claim4_counterexample :
    split_source_blocks (lc ("1. Source: A\n2. Group: G\n3. Source: B\n")) =
      [(lc ("A"), lc ("1. Source: A\n2. Group: G\n")),
       (lc ("B"), lc ("3. Source: B\n"))] ∧
    (reFindAll grpHeaderPat (lc ("1. Source: A\n2. Group: G\n3. Source: B\n"))).map
        (fun m => m.1) = [13] ∧
    (sourceHeaderMatches (lc ("1. Source: A\n2. Group: G\n3. Source: B\n"))).map
        (fun m => m.1) = [0, 25] := by
  refine ⟨by decide, by decide, by decide⟩

/-- Witness for C4's hypotheses, discharged at concrete documents. -/
theorem claim4_split_blocks_witness :
    ((0 : Nat) ≤ 12 ∧ (12 : Nat) ≤ (lc ("1. Source: A")).length) ∧
    split_source_blocks (lc ("no headers here")) = [] := by
  constructor
  · exact (claim4_split_blocks (lc ("1. Source: A"))).2.2.2.1 (0, 12, [(1, 11, 12)]) (by decide)
  · exact (claim4_split_blocks (lc ("no headers here"))).2.2.2.2.2 (by decide)

/-! ### Claim C3 -/

/-- The stripped name of a group-header match. -/
def grpNameOf (text : List Char) (m : Nat × Nat × Caps) : List Char :=
  pyStrip ((grpTxt text m.2.2 1).getD [])

/-- The non-`"ALL"` test used when scanning group headers. -/
def nonAllTest (text : List Char) (m : Nat × Nat × Caps) : Bool :=
  !(pyUpper (grpNameOf text m) = allSentinelL : Bool)

/-- Modelled from the claim's words: among the group-header lines located
strictly before position `p` of the document, the nearest (i.e. last) one
whose stripped, case-insensitive name is not the sentinel `"ALL"`. -/
def nearestQualifyingBefore (text : List Char) (p : Nat) : Option (List Char) :=
  (((reFindAll grpHeaderPat (text.take p)).filter (nonAllTest text)).getLast?).map
    (grpNameOf text)

theorem firstNonAll_eq_head? (text : List Char) :
    ∀ l : List (Nat × Nat × Caps),
      firstNonAll text l = ((l.filter (nonAllTest text)).head?).map (grpNameOf text) := by
  intro l
  induction l with
  | nil => rfl
  | cons m rest ih =>
    by_cases h : pyUpper (grpNameOf text m) = allSentinelL
    · have hn : nonAllTest text m = false := by
        simp [nonAllTest, h]
      simp only [firstNonAll, List.filter_cons, hn]
      rw [show pyStrip ((grpTxt text m.2.2 1).getD []) = grpNameOf text m from rfl]
      rw [if_pos h]
      simpa using ih
    · have hn : nonAllTest text m = true := by
        simp [nonAllTest, h]
      simp only [firstNonAll, List.filter_cons, hn]
      rw [show pyStrip ((grpTxt text m.2.2 1).getD []) = grpNameOf text m from rfl]
      rw [if_neg h]
      simp [grpNameOf]

/-- C3 (amended): the resolver's reference position is the start of the
*first* match of the source-header pattern built from the block's raw name
(not each block's own start).  Relative to that position it returns exactly
the nearest preceding group header whose stripped, case-insensitive name is
not `"ALL"`, and `"Unknown"` when the pattern does not occur or no header
qualifies; the spec's interleaving example resolves to `"Subs"`. -/
theorem claim3_group_resolution :
    (∀ text nameL,
      get_group_for_source text nameL =
        match reSearch (srcPatFor nameL) text with
        | none => unknownGroupL
        | some (st, _, _) => (nearestQualifyingBefore text st).getD unknownGroupL) ∧
    get_group_for_source (lc ("2. Group: Subs\n3. Group: ALL\n4. Source: SUB1\n"))
        (lc ("SUB1")) = lc ("Subs") := by
  constructor
  · intro text nameL
    unfold get_group_for_source
    cases hsearch : reSearch (srcPatFor nameL) text with
    | none => rfl
    | some t =>
      obtain ⟨st, en, cp⟩ := t
      dsimp only
      rw [firstNonAll_eq_head? text]
      unfold nearestQualifyingBefore
      rw [List.filter_reverse, List.head?_reverse]
      cases ((reFindAll grpHeaderPat (text.take st)).filter (nonAllTest text)).getLast? with
      | none => rfl
      | some m => rfl
  · decide

/-- C3 counterexample to the claim as stated: with the same raw name on two
blocks, the second block (header start 37) has nearest qualifying group
`"B"`, but the resolver — searching for the first occurrence of the name's
pattern — returns `"A"` for that name. -/
theorem claim3_counterexample :
    get_group_for_source (lc ("1. Group: A\n2. Source: X\n3. Group: B\n4. Source: X\n"))
        (lc ("X")) = lc ("A") ∧
    (sourceHeaderMatches (lc ("1. Group: A\n2. Source: X\n3. Group: B\n4. Source: X\n"))).map
        (fun m => m.1) = [12, 37] ∧
    nearestQualifyingBefore (lc ("1. Group: A\n2. Source: X\n3. Group: B\n4. Source: X\n"))
        37 = some (lc ("B")) := by
  refine ⟨by decide, by decide, by decide⟩

/-! ### Claim C5 -/

theorem except_bind_ok {a b : Type} {x : Except PErr a} {f : a → Except PErr b} {v : b}
    (h : (x >>= f) = .ok v) : ∃ u, x = .ok u ∧ f u = .ok v := by
  cases x with
  | error e => simp [Bind.bind, Except.bind] at h
  | ok u => exact ⟨u, rfl, by simpa [Bind.bind, Except.bind] using h⟩

theorem buildRow7_keys {blk : List Char} {m : Nat × Nat × Caps} {r : Row}
    (h : buildRow7 blk m = .ok r) : r.map (fun kv => kv.1) = colsOf7 := by
  unfold buildRow7 at h
  split at h
  · obtain ⟨f3, h3, h⟩ := except_bind_ok h
    obtain ⟨f4, h4, h⟩ := except_bind_ok h
    obtain ⟨f5, h5, h⟩ := except_bind_ok h
    obtain ⟨f6, h6, h⟩ := except_bind_ok h
    simp only [pure, Except.pure, Except.ok.injEq] at h
    subst h
    rfl
  · cases h

theorem buildRow6_keys {blk : List Char} {m : Nat × Nat × Caps} {r : Row}
    (h : buildRow6 blk m = .ok r) : r.map (fun kv => kv.1) = colsOf6 := by
  unfold buildRow6 at h
  split at h
  ·
    obtain ⟨f3, h3, h⟩ := except_bind_ok h
    obtain ⟨f4, h4, h⟩ := except_bind_ok h
    obtain ⟨f5, h5, h⟩ := except_bind_ok h
    obtain ⟨f6, h6, h⟩ := except_bind_ok h
    simp only [pure, Except.pure, Except.ok.injEq] at h
    subst h
    rfl
  · cases h

theorem buildRow5_keys {blk : List Char} {m : Nat × Nat × Caps} {r : Row}
    (h : buildRow5 blk m = .ok r) : r.map (fun kv => kv.1) = colsOf5 := by
  unfold buildRow5 at h
  split at h
  ·
    obtain ⟨f3, h3, h⟩ := except_bind_ok h
    obtain ⟨f4, h4, h⟩ := except_bind_ok h
    obtain ⟨f5, h5, h⟩ := except_bind_ok h
    simp only [pure, Except.pure, Except.ok.injEq] at h
    subst h
    rfl
  · cases h

theorem buildRows_mem {build : Nat × Nat × Caps → Except PErr Row}
    {P : Row → Prop} (hb : ∀ m r, build m = .ok r → P r) :
    ∀ {ms : List (Nat × Nat × Caps)} {rows : List Row},
      buildRows build ms = .ok rows → ∀ r ∈ rows, P r := by
  intro ms
  induction ms with
  | nil =>
    intro rows h r hr
    simp only [buildRows] at h
    cases h
    cases hr
  | cons m ms ih =>
    intro rows h r hr
    simp only [buildRows] at h
    cases hbm : build m with
    | error e => rw [hbm] at h; cases h
    | ok r0 =>
      rw [hbm] at h
      cases hrest : buildRows build ms with
      | error e => rw [hrest] at h; cases h
      | ok rs =>
        rw [hrest] at h
        cases h
        rcases List.mem_cons.mp hr with rfl | hr
        · exact hb m r hbm
        · exact ih hrest r hr

/-- C5: schema selection is decided by the two marker substrings.  Both
markers present yields the 7-column label list, the angles marker alone the
6-column list, no angles marker the 5-column list; the three cases are
mutually exclusive by construction, and every returned row's keys are
exactly the returned column labels (so all rows share the variant and the
label list's length is the rows' arity). -/
theorem claim5_schema_selection :
    ∀ (blk : List Char) (rows : List Row) (cols : List (List Char)),
      parse_enclosure_table blk = .ok (rows, cols) →
      ((hasAnglesB blk = true ∧ hasPanflexB blk = true) → cols = colsOf7) ∧
      ((hasAnglesB blk = true ∧ hasPanflexB blk = false) → cols = colsOf6) ∧
      (hasAnglesB blk = false → cols = colsOf5) ∧
      (∀ r ∈ rows, r.map (fun kv => kv.1) = cols) := by
  intro blk rows cols h
  unfold parse_enclosure_table at h
  by_cases ha : hasAnglesB blk = true
  · by_cases hp : hasPanflexB blk = true
    · rw [if_pos (by simp [ha, hp])] at h
      cases hrows : buildRows (buildRow7 blk) (reFindAll rowPat7 blk) with
      | error e => rw [hrows] at h; cases h
      | ok rs =>
        rw [hrows] at h
        cases h
        refine ⟨fun _ => rfl, fun hc => absurd hp (by simp [hc.2]), fun hc => absurd ha
          (by simp [hc]), ?_⟩
        exact buildRows_mem (fun m r hm => buildRow7_keys hm) hrows
    · have hp' : hasPanflexB blk = false := by
        cases hv : hasPanflexB blk
        · rfl
        · exact absurd hv hp
      rw [if_neg (by simp [hp']), if_pos (by simp [ha, hp'])] at h
      cases hrows : buildRows (buildRow6 blk) (reFindAll rowPat6 blk) with
      | error e => rw [hrows] at h; cases h
      | ok rs =>
        rw [hrows] at h
        cases h
        refine ⟨fun hc => absurd hc.2 hp, fun _ => rfl, fun hc => absurd ha (by simp [hc]),
          ?_⟩
        exact buildRows_mem (fun m r hm => buildRow6_keys hm) hrows
  · have ha' : hasAnglesB blk = false := by
      cases hv : hasAnglesB blk
      · rfl
      · exact absurd hv ha
    rw [if_neg (by simp [ha']), if_neg (by simp [ha'])] at h
    cases hrows : buildRows (buildRow5 blk) (reFindAll rowPat5 blk) with
    | error e => rw [hrows] at h; cases h
    | ok rs =>
      rw [hrows] at h
      cases h
      refine ⟨fun hc => absurd hc.1 ha, fun hc => absurd hc.1 ha, fun _ => rfl, ?_⟩
      exact buildRows_mem (fun m r hm => buildRow5_keys hm) hrows

/-- Witness for C5, discharged at a concrete 7-column block. -/
theorem claim5_schema_selection_witness :
    ((hasAnglesB (lc ("Angles (°) Panflex\n#1 K 1 2 3 4 0/1")) = true ∧
        hasPanflexB (lc ("Angles (°) Panflex\n#1 K 1 2 3 4 0/1")) = true) →
      colsOf7 = colsOf7) ∧
    (∀ r ∈ [[(lc ("Enc #"), PyVal.i 1), (lc ("Type"), PyVal.s (lc ("K"))),
        (lc ("Angle (°)"), PyVal.f (.fin false ⟨1, 0⟩)),
        (lc ("Site (°)"), PyVal.f (.fin false ⟨2, 0⟩)),
        (lc ("Top Z (m)"), PyVal.f (.fin false ⟨3, 0⟩)),
        (lc ("Bottom Z (m)"), PyVal.f (.fin false ⟨4, 0⟩)),
        (lc ("Panflex"), PyVal.s (lc ("0/1")))]],
      r.map (fun kv => kv.1) = colsOf7) := by
  have h := claim5_schema_selection (lc ("Angles (°) Panflex\n#1 K 1 2 3 4 0/1"))
    [[(lc ("Enc #"), PyVal.i 1), (lc ("Type"), PyVal.s (lc ("K"))),
      (lc ("Angle (°)"), PyVal.f (.fin false ⟨1, 0⟩)),
      (lc ("Site (°)"), PyVal.f (.fin false ⟨2, 0⟩)),
      (lc ("Top Z (m)"), PyVal.f (.fin false ⟨3, 0⟩)),
      (lc ("Bottom Z (m)"), PyVal.f (.fin false ⟨4, 0⟩)),
      (lc ("Panflex"), PyVal.s (lc ("0/1")))]]
    colsOf7 (by decide)
  exact ⟨h.1, h.2.2.2⟩

/-! ### Claim C7 -/

theorem reqFloat_err {g : List Char} {e : PErr} (h : reqFloat g = .error e) :
    e = .badFloat g ∧ pyFloat? g = none := by
  unfold reqFloat at h
  cases hp : pyFloat? g with
  | none => rw [hp] at h; cases h; exact ⟨rfl, rfl⟩
  | some f => rw [hp] at h; cases h

theorem except_bind_err {a b : Type} {x : Except PErr a} {f : a → Except PErr b} {e : PErr}
    (h : (x >>= f) = .error e) : x = .error e ∨ ∃ u, x = .ok u ∧ f u = .error e := by
  cases x with
  | error e0 =>
    left
    simpa [Bind.bind, Except.bind] using h
  | ok u => exact Or.inr ⟨u, rfl, by simpa [Bind.bind, Except.bind] using h⟩

theorem grpTxt_isSome {s : List Char} {cp : Caps} {g : Nat} (h : g ∈ capKeys cp) :
    ∃ t, grpTxt s cp g = some t := by
  unfold grpTxt capLookup
  cases hf : cp.find? (fun t => t.1 == g) with
  | none =>
    obtain ⟨t, hmem, ht⟩ := List.exists_of_mem_map h
    have := List.find?_eq_none.mp hf t hmem
    simp [ht] at this
  | some t => exact ⟨_, rfl⟩

theorem buildRow7_err {blk : List Char} {m : Nat × Nat × Caps} {e : PErr}
    (hm : m ∈ reFindAll rowPat7 blk) (h : buildRow7 blk m = .error e) :
    ∃ tok, e = .badFloat tok ∧ pyFloat? tok = none := by
  have hsure := (reFindAll_bounds m hm).2.2
  obtain ⟨g1, hg1⟩ := grpTxt_isSome (s := blk) (hsure 1 (by decide))
  obtain ⟨g2, hg2⟩ := grpTxt_isSome (s := blk) (hsure 2 (by decide))
  obtain ⟨g3, hg3⟩ := grpTxt_isSome (s := blk) (hsure 3 (by decide))
  obtain ⟨g4, hg4⟩ := grpTxt_isSome (s := blk) (hsure 4 (by decide))
  obtain ⟨g5, hg5⟩ := grpTxt_isSome (s := blk) (hsure 5 (by decide))
  obtain ⟨g6, hg6⟩ := grpTxt_isSome (s := blk) (hsure 6 (by decide))
  obtain ⟨g7, hg7⟩ := grpTxt_isSome (s := blk) (hsure 7 (by decide))
  unfold buildRow7 at h
  rw [hg1, hg2, hg3, hg4, hg5, hg6, hg7] at h
  simp only at h
  rcases except_bind_err h with h3 | ⟨f3, _, h⟩
  · exact ⟨g3, reqFloat_err h3⟩
  rcases except_bind_err h with h4 | ⟨f4, _, h⟩
  · exact ⟨g4, reqFloat_err h4⟩
  rcases except_bind_err h with h5 | ⟨f5, _, h⟩
  · exact ⟨g5, reqFloat_err h5⟩
  rcases except_bind_err h with h6 | ⟨f6, _, h⟩
  · exact ⟨g6, reqFloat_err h6⟩
  simp [pure, Except.pure] at h

theorem buildRow6_err {blk : List Char} {m : Nat × Nat × Caps} {e : PErr}
    (hm : m ∈ reFindAll rowPat6 blk) (h : buildRow6 blk m = .error e) :
    ∃ tok, e = .badFloat tok ∧ pyFloat? tok = none := by
  have hsure := (reFindAll_bounds m hm).2.2
  obtain ⟨g1, hg1⟩ := grpTxt_isSome (s := blk) (hsure 1 (by decide))
  obtain ⟨g2, hg2⟩ := grpTxt_isSome (s := blk) (hsure 2 (by decide))
  obtain ⟨g3, hg3⟩ := grpTxt_isSome (s := blk) (hsure 3 (by decide))
  obtain ⟨g4, hg4⟩ := grpTxt_isSome (s := blk) (hsure 4 (by decide))
  obtain ⟨g5, hg5⟩ := grpTxt_isSome (s := blk) (hsure 5 (by decide))
  obtain ⟨g6, hg6⟩ := grpTxt_isSome (s := blk) (hsure 6 (by decide))
  unfold buildRow6 at h
  rw [hg1, hg2, hg3, hg4, hg5, hg6] at h
  simp only at h
  rcases except_bind_err h with h3 | ⟨f3, _, h⟩
  · exact ⟨g3, reqFloat_err h3⟩
  rcases except_bind_err h with h4 | ⟨f4, _, h⟩
  · exact ⟨g4, reqFloat_err h4⟩
  rcases except_bind_err h with h5 | ⟨f5, _, h⟩
  · exact ⟨g5, reqFloat_err h5⟩
  rcases except_bind_err h with h6 | ⟨f6, _, h⟩
  · exact ⟨g6, reqFloat_err h6⟩
  simp [pure, Except.pure] at h

theorem buildRow5_err {blk : List Char} {m : Nat × Nat × Caps} {e : PErr}
    (hm : m ∈ reFindAll rowPat5 blk) (h : buildRow5 blk m = .error e) :
    ∃ tok, e = .badFloat tok ∧ pyFloat? tok = none := by
  have hsure := (reFindAll_bounds m hm).2.2
  obtain ⟨g1, hg1⟩ := grpTxt_isSome (s := blk) (hsure 1 (by decide))
  obtain ⟨g2, hg2⟩ := grpTxt_isSome (s := blk) (hsure 2 (by decide))
  obtain ⟨g3, hg3⟩ := grpTxt_isSome (s := blk) (hsure 3 (by decide))
  obtain ⟨g4, hg4⟩ := grpTxt_isSome (s := blk) (hsure 4 (by decide))
  obtain ⟨g5, hg5⟩ := grpTxt_isSome (s := blk) (hsure 5 (by decide))
  unfold buildRow5 at h
  rw [hg1, hg2, hg3, hg4, hg5] at h
  simp only at h
  rcases except_bind_err h with h3 | ⟨f3, _, h⟩
  · exact ⟨g3, reqFloat_err h3⟩
  rcases except_bind_err h with h4 | ⟨f4, _, h⟩
  · exact ⟨g4, reqFloat_err h4⟩
  rcases except_bind_err h with h5 | ⟨f5, _, h⟩
  · exact ⟨g5, reqFloat_err h5⟩
  simp [pure, Except.pure] at h

theorem buildRows_err {build : Nat × Nat × Caps → Except PErr Row} :
    ∀ {ms : List (Nat × Nat × Caps)} {e : PErr},
      buildRows build ms = .error e → ∃ m ∈ ms, build m = .error e := by
  intro ms
  induction ms with
  | nil => intro e h; simp only [buildRows] at h; cases h
  | cons m ms ih =>
    intro e h
    simp only [buildRows] at h
    cases hbm : build m with
    | error e0 =>
      rw [hbm] at h
      cases h
      exact ⟨m, List.mem_cons_self m ms, hbm⟩
    | ok r0 =>
      rw [hbm] at h
      cases hrest : buildRows build ms with
      | error e0 =>
        rw [hrest] at h
        cases h
        obtain ⟨m2, hm2, hb2⟩ := ih hrest
        exact ⟨m2, List.mem_cons_of_mem m hm2, hb2⟩
      | ok rs => rw [hrest] at h; cases h

theorem parse_enclosure_table_err {blk : List Char} {e : PErr}
    (h : parse_enclosure_table blk = .error e) :
    ∃ tok, e = .badFloat tok ∧ pyFloat? tok = none := by
  unfold parse_enclosure_table at h
  by_cases h1 : (hasAnglesB blk && hasPanflexB blk) = true
  · rw [if_pos h1] at h
    cases hrows : buildRows (buildRow7 blk) (reFindAll rowPat7 blk) with
    | error e0 =>
      rw [hrows] at h
      cases h
      obtain ⟨m, hm, hb⟩ := buildRows_err hrows
      exact buildRow7_err hm hb
    | ok rs => rw [hrows] at h; cases h
  · rw [if_neg h1] at h
    by_cases h2 : (hasAnglesB blk && !hasPanflexB blk) = true
    · rw [if_pos h2] at h
      cases hrows : buildRows (buildRow6 blk) (reFindAll rowPat6 blk) with
      | error e0 =>
        rw [hrows] at h
        cases h
        obtain ⟨m, hm, hb⟩ := buildRows_err hrows
        exact buildRow6_err hm hb
      | ok rs => rw [hrows] at h; cases h
    · rw [if_neg h2] at h
      cases hrows : buildRows (buildRow5 blk) (reFindAll rowPat5 blk) with
      | error e0 =>
        rw [hrows] at h
        cases h
        obtain ⟨m, hm, hb⟩ := buildRows_err hrows
        exact buildRow5_err hm hb
      | ok rs => rw [hrows] at h; cases h

theorem parseDocGo_err {text : List Char} :
    ∀ {blocks : List (List Char × List Char)} {acc : GroupsT} {e : PErr},
      parseDocGo text blocks acc = .error e →
      ∃ tok, e = .badFloat tok ∧ pyFloat? tok = none := by
  intro blocks
  induction blocks with
  | nil => intro acc e h; simp only [parseDocGo] at h; cases h
  | cons b rest ih =>
    intro acc e h
    obtain ⟨nm, blk⟩ := b
    simp only [parseDocGo] at h
    cases hpe : parse_enclosure_table blk with
    | error e0 =>
      rw [hpe] at h
      cases h
      exact parse_enclosure_table_err hpe
    | ok rc =>
      obtain ⟨encs, cols⟩ := rc
      rw [hpe] at h
      simp only at h
      by_cases hdup : ((lookupGroup acc (get_group_for_source text nm)).any
          (fun s => decide (recFp s = source_fingerprint (parse_physical_config blk) encs)))
          = true
      · rw [if_pos hdup] at h
        exact ih h
      · rw [if_neg hdup] at h
        exact ih h

/-- C7 (amended: the parser can raise): for every document text,
`parse_document` either returns a result — degrading gracefully to sparse
mappings, empty enclosure lists and the `"Unknown"` group — or raises the
`ValueError` of `float(...)` applied to a matched enclosure-row token that
is not a valid float literal; no other failure is possible. -/
theorem claim7_error_behaviour (text : List Char) :
    (∃ gs, parse_document text = .ok gs) ∨
    (∃ tok, parse_document text = .error (.badFloat tok) ∧ pyFloat? tok = none) := by
  cases h : parse_document text with
  | ok gs => exact Or.inl ⟨gs, rfl⟩
  | error e =>
    obtain ⟨tok, rfl, hp⟩ := parseDocGo_err h
    exact Or.inr ⟨tok, rfl, hp⟩

/-- C7 counterexample to the claim as stated: a malformed numeric token
`"-"` in a matched 5-column enclosure row makes `parse_document` raise a
`ValueError` instead of degrading gracefully. -/
theorem claim7_counterexample :
    parse_document (lc ("1. Source: A\n#1 X - 2.0 3.0\n")) =
      .error (.badFloat (lc ("-"))) := by
  decide

/-! ### Algebra of the insertion-ordered group structure -/

def totalRecs (gs : GroupsT) : Nat :=
  (gs.map (fun p => p.2.length)).sum

theorem lookupGroup_cons (p : List Char × List SrcRec) (ps : GroupsT) (g : List Char) :
    lookupGroup (p :: ps) g = if p.1 == g then p.2 else lookupGroup ps g := by
  unfold lookupGroup
  cases hpg : (p.1 == g) with
  | false => simp [List.find?_cons, hpg]
  | true => simp [List.find?_cons, hpg]

theorem anyKey_iff (gs : GroupsT) (g : List Char) :
    gs.any (fun p => p.1 == g) = true ↔ g ∈ gs.map (fun p => p.1) := by
  rw [List.any_eq_true]
  constructor
  · rintro ⟨p, hp, hpg⟩
    exact List.mem_map.mpr ⟨p, hp, by simpa using hpg⟩
  · intro h
    obtain ⟨p, hp, he⟩ := List.mem_map.mp h
    exact ⟨p, hp, by simpa using he⟩

theorem lookupGroup_ne_nil_mem {gs : GroupsT} {g : List Char}
    (h : lookupGroup gs g ≠ []) : g ∈ gs.map (fun p => p.1) := by
  unfold lookupGroup at h
  cases hf : gs.find? (fun p => p.1 == g) with
  | none => rw [hf] at h; exact absurd rfl h
  | some p =>
    have hmem := List.mem_of_find?_eq_some hf
    have hkey := List.find?_some hf
    simp only [beq_iff_eq] at hkey
    exact hkey ▸ List.mem_map_of_mem (fun p => p.1) hmem

theorem appendToGroup_keys (gs : GroupsT) (g : List Char) (r : SrcRec) :
    (appendToGroup gs g r).map (fun p => p.1) =
      if gs.any (fun p => p.1 == g) then gs.map (fun p => p.1)
      else gs.map (fun p => p.1) ++ [g] := by
  unfold appendToGroup
  by_cases h : gs.any (fun p => p.1 == g) = true
  · rw [if_pos h, if_pos h, List.map_map]
    refine List.map_congr_left ?_
    intro p _
    simp only [Function.comp_apply]
    split <;> rfl
  · rw [if_neg h, if_neg h, List.map_append]
    rfl

theorem lookup_mapAdd (g : List Char) (r : SrcRec) (gs : GroupsT) (g' : List Char) :
    lookupGroup (gs.map (fun p => if p.1 == g then (p.1, p.2 ++ [r]) else p)) g' =
      if g' = g ∧ gs.any (fun p => p.1 == g) = true then lookupGroup gs g' ++ [r]
      else lookupGroup gs g' := by
  unfold lookupGroup
  rw [List.find?_map]
  have hcomp : ((fun p : List Char × List SrcRec => p.1 == g') ∘
      (fun p => if p.1 == g then (p.1, p.2 ++ [r]) else p))
      = (fun p : List Char × List SrcRec => p.1 == g') := by
    funext p
    simp only [Function.comp_apply]
    split <;> rfl
  rw [hcomp]
  cases hf : gs.find? (fun p => p.1 == g') with
  | none =>
    simp only [Option.map_none']
    have hcond : ¬(g' = g ∧ gs.any (fun p => p.1 == g) = true) := by
      rintro ⟨rfl, hany⟩
      obtain ⟨p, hp, hpg⟩ := List.any_eq_true.mp hany
      have := List.find?_eq_none.mp hf p hp
      exact this hpg
    rw [if_neg hcond]
  | some p =>
    simp only [Option.map_some']
    have hkey : p.1 = g' := by simpa using List.find?_some hf
    have hmem := List.mem_of_find?_eq_some hf
    by_cases hpg : (p.1 == g) = true
    · have hgg : g' = g := by
        rw [← hkey]
        simpa using hpg
      have hany : gs.any (fun q => q.1 == g) = true :=
        List.any_eq_true.mpr ⟨p, hmem, hpg⟩
      rw [if_pos hpg, if_pos ⟨hgg, hany⟩]
    · have hgg : ¬g' = g := fun hc => hpg (by simp [hkey, hc])
      rw [if_neg hpg, if_neg (fun hc => hgg hc.1)]

theorem find?_append_some {α : Type} {p : α → Bool} {l1 l2 : List α} {a : α}
    (h : l1.find? p = some a) : (l1 ++ l2).find? p = some a := by
  induction l1 with
  | nil => simp [List.find?] at h
  | cons x xs ih =>
    cases hpx : p x with
    | true =>
      rw [List.find?_cons_of_pos _ hpx] at h
      rw [List.cons_append, List.find?_cons_of_pos _ hpx]
      exact h
    | false =>
      have hneg : ¬p x = true := by simp [hpx]
      rw [List.find?_cons_of_neg _ hneg] at h
      rw [List.cons_append, List.find?_cons_of_neg _ hneg]
      exact ih h

theorem find?_append_none {α : Type} {p : α → Bool} {l1 l2 : List α}
    (h : l1.find? p = none) : (l1 ++ l2).find? p = l2.find? p := by
  induction l1 with
  | nil => simp
  | cons x xs ih =>
    cases hpx : p x with
    | true => rw [List.find?_cons_of_pos _ hpx] at h; cases h
    | false =>
      have hneg : ¬p x = true := by simp [hpx]
      rw [List.find?_cons_of_neg _ hneg] at h
      rw [List.cons_append, List.find?_cons_of_neg _ hneg]
      exact ih h

theorem appendToGroup_lookup (gs : GroupsT) (g : List Char) (r : SrcRec) (g' : List Char) :
    lookupGroup (appendToGroup gs g r) g' =
      if g' = g then lookupGroup gs g' ++ [r] else lookupGroup gs g' := by
  unfold appendToGroup
  by_cases h : gs.any (fun p => p.1 == g) = true
  · rw [if_pos h, lookup_mapAdd]
    by_cases hg : g' = g
    · rw [if_pos ⟨hg, h⟩, if_pos hg]
    · rw [if_neg (fun hc => hg hc.1), if_neg hg]
  · rw [if_neg h]
    unfold lookupGroup
    cases hf : gs.find? (fun p => p.1 == g') with
    | some p =>
      rw [find?_append_some hf]
      have hkey : p.1 = g' := by simpa using List.find?_some hf
      have hmem := List.mem_of_find?_eq_some hf
      have hgg : ¬g' = g := by
        intro hc
        apply h
        exact List.any_eq_true.mpr ⟨p, hmem, by simp [hkey, hc]⟩
      rw [if_neg hgg]
    | none =>
      rw [find?_append_none hf]
      by_cases hg : g' = g
      · subst hg
        rw [if_pos rfl]
        simp [List.find?]
      · have : ((g, [r]).1 == g') = false := by
          simp
          exact fun hc => hg hc.symm
        rw [if_neg hg]
        simp [List.find?, this]

theorem totalRecs_append (gs : GroupsT) (g : List Char) (r : SrcRec)
    (hnd : (gs.map (fun p => p.1)).Nodup) :
    totalRecs (appendToGroup gs g r) = totalRecs gs + 1 := by
  unfold appendToGroup
  by_cases h : gs.any (fun p => p.1 == g) = true
  · rw [if_pos h]
    induction gs with
    | nil => simp at h
    | cons p ps ih =>
      simp only [List.map_cons] at hnd
      have hnd1 := (List.nodup_cons.mp hnd).1
      have hnd2 := (List.nodup_cons.mp hnd).2
      cases hpg : (p.1 == g) with
      | true =>
        have hg : p.1 = g := by simpa using hpg
        have hnog : ∀ q ∈ ps, (q.1 == g) = false := by
          intro q hq
          have hql : q.1 ∈ ps.map (fun p => p.1) := List.mem_map_of_mem _ hq
          cases hv : (q.1 == g) with
          | false => rfl
          | true =>
            have : q.1 = g := by simpa using hv
            exact absurd (by rw [hg, ← this]; exact hql) hnd1
        have hmap : ps.map (fun q => if q.1 == g then (q.1, q.2 ++ [r]) else q) = ps := by
          have : ∀ q ∈ ps, (if q.1 == g then (q.1, q.2 ++ [r]) else q) = id q := by
            intro q hq
            simp [hnog q hq]
          rw [List.map_congr_left this, List.map_id]
        simp only [List.map_cons, hpg, if_true, hmap]
        unfold totalRecs
        simp [List.length_append]
        omega
      | false =>
        have hany : ps.any (fun p => p.1 == g) = true := by
          rcases List.any_eq_true.mp h with ⟨q, hq, hqg⟩
          rcases List.mem_cons.mp hq with rfl | hq
          · rw [hpg] at hqg; cases hqg
          · exact List.any_eq_true.mpr ⟨q, hq, hqg⟩
        have ihr := ih hnd2 hany
        simp only [List.map_cons, hpg]
        unfold totalRecs at ihr ⊢
        simp only [List.map_cons, List.sum_cons]
        simp only [Bool.false_eq_true, if_false]
        omega
  · rw [if_neg h]
    unfold totalRecs
    simp [List.map_append]

theorem appendToGroup_keys_nodup (gs : GroupsT) (g : List Char) (r : SrcRec)
    (hnd : (gs.map (fun p => p.1)).Nodup) :
    ((appendToGroup gs g r).map (fun p => p.1)).Nodup := by
  rw [appendToGroup_keys]
  by_cases h : gs.any (fun p => p.1 == g) = true
  · rw [if_pos h]
    exact hnd
  · have h' : g ∉ gs.map (fun p => p.1) := fun hc => h ((anyKey_iff gs g).mpr hc)
    rw [if_neg h]
    rw [List.nodup_append]
    refine ⟨hnd, List.nodup_singleton g, ?_⟩
    intro a ha hb
    rw [List.mem_singleton] at hb
    exact h' (hb ▸ ha)

theorem lookup_of_mem_nodup :
    ∀ (gs : GroupsT), (gs.map (fun p => p.1)).Nodup →
      ∀ q ∈ gs, lookupGroup gs q.1 = q.2 := by
  intro gs
  induction gs with
  | nil => intro _ q hq; cases hq
  | cons p ps ih =>
    intro hnd q hq
    simp only [List.map_cons] at hnd
    have hnd1 := (List.nodup_cons.mp hnd).1
    have hnd2 := (List.nodup_cons.mp hnd).2
    rcases List.mem_cons.mp hq with rfl | hq
    · rw [lookupGroup_cons]
      simp
    · have hne : (p.1 == q.1) = false := by
        have hq1 : q.1 ∈ ps.map (fun p => p.1) := List.mem_map_of_mem _ hq
        cases hv : (p.1 == q.1) with
        | false => rfl
        | true =>
          have : p.1 = q.1 := by simpa using hv
          exact absurd (this ▸ hq1) hnd1
      rw [lookupGroup_cons, hne]
      simp only [Bool.false_eq_true, if_false]
      exact ih hnd2 q hq

theorem appendToGroup_mem {gs : GroupsT} {g : List Char} {r : SrcRec}
    {p : List Char × List SrcRec} (hp : p ∈ appendToGroup gs g r) :
    p ∈ gs ∨ (∃ q ∈ gs, q.1 = g ∧ p = (q.1, q.2 ++ [r])) ∨ p = (g, [r]) := by
  unfold appendToGroup at hp
  by_cases h : gs.any (fun q => q.1 == g) = true
  · rw [if_pos h] at hp
    obtain ⟨q, hq, hfq⟩ := List.mem_map.mp hp
    by_cases hqg : (q.1 == g) = true
    · rw [if_pos hqg] at hfq
      exact Or.inr (Or.inl ⟨q, hq, by simpa using hqg, hfq.symm⟩)
    · rw [if_neg hqg] at hfq
      exact Or.inl (hfq ▸ hq)
  · rw [if_neg h] at hp
    rcases List.mem_append.mp hp with hp | hp
    · exact Or.inl hp
    · exact Or.inr (Or.inr (List.mem_singleton.mp hp))

/-! ### Specification-side views of the assembler scan -/

/-- The resolved group name of each block, in scan order. -/
def scanNames (text : List Char) (blocks : List (List Char × List Char)) : List (List Char) :=
  blocks.map (fun b => get_group_for_source text b.1)

/-- Follows the claim's words: how many blocks the scan discards because
their fingerprint equals that of a record already inserted into their
resolved group (the evolving group state is simulated alongside; a block on
which enclosure extraction raises contributes nothing, the scan having
aborted). -/
def discardedCount (text : List Char) : List (List Char × List Char) → GroupsT → Nat
  | [], _ => 0
  | (nm, blk) :: rest, acc =>
    match parse_enclosure_table blk with
    | .error _ => 0
    | .ok (encs, cols) =>
      if (lookupGroup acc (get_group_for_source text nm)).any
          (fun s => decide (recFp s = source_fingerprint (parse_physical_config blk) encs))
          then
        1 + discardedCount text rest acc
      else
        discardedCount text rest
          (appendToGroup acc (get_group_for_source text nm)
            ⟨get_canonical_name nm, parse_physical_config blk, encs, cols⟩)

/-- Follows the claim's words: the records produced, in scan order, by the
surviving (non-duplicate) blocks whose resolved group is `g`; `rs` carries
the records already inserted into `g`. -/
def survivorsOf (text g : List Char) : List (List Char × List Char) → List SrcRec →
    List SrcRec
  | [], _ => []
  | (nm, blk) :: rest, rs =>
    match parse_enclosure_table blk with
    | .error _ => []
    | .ok (encs, cols) =>
      if get_group_for_source text nm = g then
        if rs.any (fun s => decide (recFp s =
            source_fingerprint (parse_physical_config blk) encs)) then
          survivorsOf text g rest rs
        else
          ⟨get_canonical_name nm, parse_physical_config blk, encs, cols⟩ ::
            survivorsOf text g rest
              (rs ++ [⟨get_canonical_name nm, parse_physical_config blk, encs, cols⟩])
      else survivorsOf text g rest rs

theorem parseDocGo_count {text : List Char} :
    ∀ (blocks : List (List Char × List Char)) (acc gs : GroupsT),
      parseDocGo text blocks acc = .ok gs → (acc.map (fun p => p.1)).Nodup →
      totalRecs gs + discardedCount text blocks acc = totalRecs acc + blocks.length := by
  intro blocks
  induction blocks with
  | nil =>
    intro acc gs h _
    simp only [parseDocGo] at h
    cases h
    simp [discardedCount]
  | cons b rest ih =>
    intro acc gs h hnd
    obtain ⟨nm, blk⟩ := b
    simp only [parseDocGo] at h
    simp only [discardedCount]
    cases hpe : parse_enclosure_table blk with
    | error e => rw [hpe] at h; cases h
    | ok rc =>
      obtain ⟨encs, cols⟩ := rc
      rw [hpe] at h
      simp only at h
      dsimp only
      by_cases hdup : ((lookupGroup acc (get_group_for_source text nm)).any
          (fun s => decide (recFp s = source_fingerprint (parse_physical_config blk) encs)))
          = true
      · rw [if_pos hdup] at h
        rw [if_pos hdup]
        have := ih acc gs h hnd
        simp only [List.length_cons]
        omega
      · rw [if_neg hdup] at h
        rw [if_neg hdup]
        have hnd' := appendToGroup_keys_nodup acc (get_group_for_source text nm)
          ⟨get_canonical_name nm, parse_physical_config blk, encs, cols⟩ hnd
        have := ih _ gs h hnd'
        rw [totalRecs_append _ _ _ hnd] at this
        simp only [List.length_cons]
        omega

theorem parseDocGo_pairwise {text : List Char} :
    ∀ (blocks : List (List Char × List Char)) (acc gs : GroupsT),
      parseDocGo text blocks acc = .ok gs → (acc.map (fun p => p.1)).Nodup →
      (∀ p ∈ acc, p.2.Pairwise (fun a b => recFp a ≠ recFp b)) →
      ∀ p ∈ gs, p.2.Pairwise (fun a b => recFp a ≠ recFp b) := by
  intro blocks
  induction blocks with
  | nil =>
    intro acc gs h _ hpw
    simp only [parseDocGo] at h
    cases h
    exact hpw
  | cons b rest ih =>
    intro acc gs h hnd hpw
    obtain ⟨nm, blk⟩ := b
    simp only [parseDocGo] at h
    cases hpe : parse_enclosure_table blk with
    | error e => rw [hpe] at h; cases h
    | ok rc =>
      obtain ⟨encs, cols⟩ := rc
      rw [hpe] at h
      simp only at h
      by_cases hdup : ((lookupGroup acc (get_group_for_source text nm)).any
          (fun s => decide (recFp s = source_fingerprint (parse_physical_config blk) encs)))
          = true
      · rw [if_pos hdup] at h
        exact ih acc gs h hnd hpw
      · rw [if_neg hdup] at h
        have hnd' := appendToGroup_keys_nodup acc (get_group_for_source text nm)
          ⟨get_canonical_name nm, parse_physical_config blk, encs, cols⟩ hnd
        refine ih _ gs h hnd' ?_
        intro p hp
        rcases appendToGroup_mem hp with hp | ⟨q, hq, hqk, rfl⟩ | rfl
        · exact hpw p hp
        · have hql : q.2 = lookupGroup acc (get_group_for_source text nm) := by
            rw [← hqk]
            exact (lookup_of_mem_nodup acc hnd q hq).symm
          rw [List.pairwise_append]
          refine ⟨hpw q hq, List.pairwise_singleton _ _, ?_⟩
          intro a ha b hb
          rw [List.mem_singleton] at hb
          subst hb
          have hnotany : ∀ s ∈ lookupGroup acc (get_group_for_source text nm),
              ¬(recFp s = source_fingerprint (parse_physical_config blk) encs) := by
            intro s hs hc
            exact hdup (List.any_eq_true.mpr ⟨s, hs, by simp [hc]⟩)
          intro hc
          exact hnotany a (hql ▸ ha) (hc.trans rfl)
        · exact List.pairwise_singleton _ _

theorem parseDocGo_nonempty {text : List Char} :
    ∀ (blocks : List (List Char × List Char)) (acc gs : GroupsT),
      parseDocGo text blocks acc = .ok gs →
      (∀ p ∈ acc, p.2 ≠ []) → ∀ p ∈ gs, p.2 ≠ [] := by
  intro blocks
  induction blocks with
  | nil =>
    intro acc gs h hne
    simp only [parseDocGo] at h
    cases h
    exact hne
  | cons b rest ih =>
    intro acc gs h hne
    obtain ⟨nm, blk⟩ := b
    simp only [parseDocGo] at h
    cases hpe : parse_enclosure_table blk with
    | error e => rw [hpe] at h; cases h
    | ok rc =>
      obtain ⟨encs, cols⟩ := rc
      rw [hpe] at h
      simp only at h
      by_cases hdup : ((lookupGroup acc (get_group_for_source text nm)).any
          (fun s => decide (recFp s = source_fingerprint (parse_physical_config blk) encs)))
          = true
      · rw [if_pos hdup] at h
        exact ih acc gs h hne
      · rw [if_neg hdup] at h
        refine ih _ gs h ?_
        intro p hp
        rcases appendToGroup_mem hp with hp | ⟨q, hq, hqk, rfl⟩ | rfl
        · exact hne p hp
        · simp
        · simp

theorem firstDedupGo_congr :
    ∀ (l : List (List Char)) (s1 s2 : List (List Char)),
      (∀ x, x ∈ s1 ↔ x ∈ s2) → firstDedupGo s1 l = firstDedupGo s2 l := by
  intro l
  induction l with
  | nil => intro s1 s2 _; rfl
  | cons t ts ih =>
    intro s1 s2 hss
    by_cases h : t ∈ s1
    · have h2 : t ∈ s2 := (hss t).mp h
      simp only [firstDedupGo, if_pos h, if_pos h2]
      exact ih s1 s2 hss
    · have h2 : t ∉ s2 := fun hc => h ((hss t).mpr hc)
      simp only [firstDedupGo, if_neg h, if_neg h2]
      rw [ih (t :: s1) (t :: s2) (by
        intro x
        simp only [List.mem_cons]
        constructor
        · rintro (rfl | hx)
          · exact Or.inl rfl
          · exact Or.inr ((hss x).mp hx)
        · rintro (rfl | hx)
          · exact Or.inl rfl
          · exact Or.inr ((hss x).mpr hx))]

theorem parseDocGo_keys {text : List Char} :
    ∀ (blocks : List (List Char × List Char)) (acc gs : GroupsT),
      parseDocGo text blocks acc = .ok gs →
      gs.map (fun p => p.1) =
        acc.map (fun p => p.1) ++
          firstDedupGo (acc.map (fun p => p.1)) (scanNames text blocks) := by
  intro blocks
  induction blocks with
  | nil =>
    intro acc gs h
    simp only [parseDocGo] at h
    cases h
    simp [scanNames, firstDedupGo]
  | cons b rest ih =>
    intro acc gs h
    obtain ⟨nm, blk⟩ := b
    simp only [parseDocGo] at h
    cases hpe : parse_enclosure_table blk with
    | error e => rw [hpe] at h; cases h
    | ok rc =>
      obtain ⟨encs, cols⟩ := rc
      rw [hpe] at h
      simp only at h
      have hscan : scanNames text ((nm, blk) :: rest) =
          get_group_for_source text nm :: scanNames text rest := rfl
      by_cases hdup : ((lookupGroup acc (get_group_for_source text nm)).any
          (fun s => decide (recFp s = source_fingerprint (parse_physical_config blk) encs)))
          = true
      · rw [if_pos hdup] at h
        have hmem : get_group_for_source text nm ∈ acc.map (fun p => p.1) := by
          refine lookupGroup_ne_nil_mem ?_
          intro hc
          rw [hc] at hdup
          simp at hdup
        rw [hscan]
        simp only [firstDedupGo, if_pos hmem]
        exact ih acc gs h
      · rw [if_neg hdup] at h
        have hkeys := appendToGroup_keys acc (get_group_for_source text nm)
          ⟨get_canonical_name nm, parse_physical_config blk, encs, cols⟩
        by_cases hmem : get_group_for_source text nm ∈ acc.map (fun p => p.1)
        · have hany : acc.any (fun p => p.1 == get_group_for_source text nm) = true :=
            (anyKey_iff _ _).mpr hmem
          rw [hscan]
          simp only [firstDedupGo, if_pos hmem]
          have := ih _ gs h
          rw [this, hkeys, if_pos hany]
        · have hany : ¬acc.any (fun p => p.1 == get_group_for_source text nm) = true :=
            fun hc => hmem ((anyKey_iff _ _).mp hc)
          rw [hscan]
          simp only [firstDedupGo, if_neg hmem]
          have := ih _ gs h
          rw [this, hkeys, if_neg hany]
          rw [firstDedupGo_congr (scanNames text rest)
            (acc.map (fun p => p.1) ++ [get_group_for_source text nm])
            (get_group_for_source text nm :: acc.map (fun p => p.1))
            (by
              intro x
              simp only [List.mem_append, List.mem_cons, List.not_mem_nil, or_false]
              exact Or.comm)]
          simp

theorem parseDocGo_records {text : List Char} :
    ∀ (blocks : List (List Char × List Char)) (acc gs : GroupsT),
      parseDocGo text blocks acc = .ok gs → (acc.map (fun p => p.1)).Nodup →
      ∀ g, lookupGroup gs g =
        lookupGroup acc g ++ survivorsOf text g blocks (lookupGroup acc g) := by
  intro blocks
  induction blocks with
  | nil =>
    intro acc gs h _ g
    simp only [parseDocGo] at h
    cases h
    simp [survivorsOf]
  | cons b rest ih =>
    intro acc gs h hnd g
    obtain ⟨nm, blk⟩ := b
    simp only [parseDocGo] at h
    simp only [survivorsOf]
    cases hpe : parse_enclosure_table blk with
    | error e => rw [hpe] at h; cases h
    | ok rc =>
      obtain ⟨encs, cols⟩ := rc
      rw [hpe] at h
      simp only at h
      dsimp only
      by_cases hdup : ((lookupGroup acc (get_group_for_source text nm)).any
          (fun s => decide (recFp s = source_fingerprint (parse_physical_config blk) encs)))
          = true
      · rw [if_pos hdup] at h
        by_cases hg : get_group_for_source text nm = g
        · rw [if_pos hg]
          rw [if_pos (by rw [← hg]; exact hdup)]
          exact ih acc gs h hnd g
        · rw [if_neg hg]
          exact ih acc gs h hnd g
      · rw [if_neg hdup] at h
        have hnd' := appendToGroup_keys_nodup acc (get_group_for_source text nm)
          ⟨get_canonical_name nm, parse_physical_config blk, encs, cols⟩ hnd
        have hih := ih _ gs h hnd' g
        rw [appendToGroup_lookup] at hih
        by_cases hg : get_group_for_source text nm = g
        · rw [if_pos hg]
          rw [if_neg (by rw [← hg]; exact hdup)]
          rw [if_pos hg.symm] at hih
          rw [hih]
          simp
        · rw [if_neg hg]
          rw [if_neg (fun hc => hg hc.symm)] at hih
          exact hih

/-! ### Claims C1, C8, C10 -/

/-- C1: on a successful parse, every source block found by the splitter
yields exactly one record except the fingerprint-duplicates, which yield
none: the record count plus the number of discarded blocks equals the
number of source headers; consequently no two records in the same group
have equal fingerprints. -/
theorem claim1_one_record_per_header :
    ∀ (text : List Char) (gs : GroupsT), parse_document text = .ok gs →
      totalRecs gs + discardedCount text (split_source_blocks text) [] =
        (split_source_blocks text).length ∧
      ∀ p ∈ gs, p.2.Pairwise (fun a b => recFp a ≠ recFp b) := by
  intro text gs h
  constructor
  · have := parseDocGo_count (split_source_blocks text) [] gs h (by simp)
    simpa [totalRecs] using this
  · exact parseDocGo_pairwise (split_source_blocks text) [] gs h (by simp)
      (by intro p hp; cases hp)

/-- C8: on a successful parse, the group iteration order is the
first-occurrence order of the distinct resolved group names over the blocks
in document order, and the records of each group are those of its surviving
blocks in first-occurrence (post-dedup) order. -/
theorem claim8_iteration_order :
    ∀ (text : List Char) (gs : GroupsT), parse_document text = .ok gs →
      gs.map (fun p => p.1) = firstDedup (scanNames text (split_source_blocks text)) ∧
      ∀ g, lookupGroup gs g = survivorsOf text g (split_source_blocks text) [] := by
  intro text gs h
  constructor
  · have := parseDocGo_keys (split_source_blocks text) [] gs h
    simpa [firstDedup] using this
  · intro g
    have := parseDocGo_records (split_source_blocks text) [] gs h (by simp) g
    simpa [lookupGroup] using this

/-- C10: on a successful parse, every group in the result has at least one
record — a group entry is created only when a surviving record is appended
to it. -/
theorem claim10_no_empty_group :
    ∀ (text : List Char) (gs : GroupsT), parse_document text = .ok gs →
      ∀ p ∈ gs, p.2 ≠ [] := by
  intro text gs h
  exact parseDocGo_nonempty (split_source_blocks text) [] gs h (by intro p hp; cases hp)

/-- A concrete mirrored-pair document and its parse result. -/
def exMirrorDoc : List Char :=
  lc ("1. Group: G\n2. Source: M L\nPosition (X; Y; Z, m): -1.5; 2; 3\n3. Source: M R\nPosition (X; Y; Z, m): 1.5; 2; 3\n")

def exMirrorGroups : GroupsT :=
  [(lc ("G"), [⟨lc ("M"),
      [(lc ("Position X (m)"), lc ("-1.5")), (lc ("Position Y (m)"), lc ("2")),
       (lc ("Position Z (m)"), lc ("3"))], [], colsOf5⟩])]

/-- Witness for C1 at the mirrored-pair document. -/
theorem claim1_one_record_per_header_witness :
    totalRecs exMirrorGroups +
        discardedCount exMirrorDoc (split_source_blocks exMirrorDoc) [] =
      (split_source_blocks exMirrorDoc).length ∧
    ∀ p ∈ exMirrorGroups, p.2.Pairwise (fun a b => recFp a ≠ recFp b) :=
  claim1_one_record_per_header exMirrorDoc exMirrorGroups (by decide)

/-- Witness for C8 at the mirrored-pair document. -/
theorem claim8_iteration_order_witness :
    exMirrorGroups.map (fun p => p.1) =
        firstDedup (scanNames exMirrorDoc (split_source_blocks exMirrorDoc)) ∧
    ∀ g, lookupGroup exMirrorGroups g =
        survivorsOf exMirrorDoc g (split_source_blocks exMirrorDoc) [] :=
  claim8_iteration_order exMirrorDoc exMirrorGroups (by decide)

/-- Witness for C10 at the mirrored-pair document: its first group has a
nonempty record list. -/
theorem claim10_no_empty_group_witness :
    (exMirrorGroups.head (by decide)).2.isEmpty = false := by
  rw [← Bool.not_eq_true, List.isEmpty_iff]
  exact claim10_no_empty_group exMirrorDoc exMirrorGroups (by decide)
    (exMirrorGroups.head (by decide)) (List.head_mem _)

/-! ### Claim C9 -/

/-- C9 counterexample to the claim as stated: this line has the claimed
5-column row shape — leading `#1`, a type token `"KS28 X"` with internal
whitespace, then exactly three numeric fields to end of line — yet the
5-column extractor recognises no row at all (its type class `[\w]+` admits
no whitespace). -/
theorem claim9_counterexample :
    parse_enclosure_table (lc ("#1 KS28 X 0.0 2.0 1.0")) = .ok ([], colsOf5) := by
  decide

/-- C9 (amended): rows are recognised by a pattern anchored at end of line
(a match may start after arbitrary junk on the line); the 6- and 7-column
variants' type tokens may contain internal whitespace, while the 5-column
variant's type token is a single word-character run (an `_C` suffix being
subsumed by it) and admits no internal whitespace.  The conjuncts exercise
each variant: a 7-column row with type `"KARA II"`, a 6-column row with
type `"KIVA X"`, a 5-column row with type `"SB28_C"`, a 5-column match
starting mid-line, and the rejection of a 5-column line whose type contains
a space. -/
theorem claim9_row_recognition :
    parse_enclosure_table (lc ("Angles (°) Panflex\n#2 KARA II 1.0 2.5 9.5 9.0 1/3")) =
      .ok ([[(lc ("Enc #"), PyVal.i 2), (lc ("Type"), PyVal.s (lc ("KARA II"))),
        (lc ("Angle (°)"), PyVal.f (.fin false ⟨1, 0⟩)),
        (lc ("Site (°)"), PyVal.f (.fin false ⟨25, -1⟩)),
        (lc ("Top Z (m)"), PyVal.f (.fin false ⟨95, -1⟩)),
        (lc ("Bottom Z (m)"), PyVal.f (.fin false ⟨9, 0⟩)),
        (lc ("Panflex"), PyVal.s (lc ("1/3")))]], colsOf7) ∧
    parse_enclosure_table (lc ("Angles (°)\n#3 KIVA X 0.5 1.5 8.0 7.5")) =
      .ok ([[(lc ("Enc #"), PyVal.i 3), (lc ("Type"), PyVal.s (lc ("KIVA X"))),
        (lc ("Angle (°)"), PyVal.f (.fin false ⟨5, -1⟩)),
        (lc ("Site (°)"), PyVal.f (.fin false ⟨15, -1⟩)),
        (lc ("Top Z (m)"), PyVal.f (.fin false ⟨8, 0⟩)),
        (lc ("Bottom Z (m)"), PyVal.f (.fin false ⟨75, -1⟩))]], colsOf6) ∧
    parse_enclosure_table (lc ("#1 SB28_C 0.0 2.0 1.0")) =
      .ok ([[(lc ("Enc #"), PyVal.i 1), (lc ("Type"), PyVal.s (lc ("SB28_C"))),
        (lc ("Site (°)"), PyVal.f (.fin false ⟨0, 0⟩)),
        (lc ("Top Z (m)"), PyVal.f (.fin false ⟨2, 0⟩)),
        (lc ("Bottom Z (m)"), PyVal.f (.fin false ⟨1, 0⟩))]], colsOf5) ∧
    parse_enclosure_table (lc ("junk #2 X8 1 2 3")) =
      .ok ([[(lc ("Enc #"), PyVal.i 2), (lc ("Type"), PyVal.s (lc ("X8"))),
        (lc ("Site (°)"), PyVal.f (.fin false ⟨1, 0⟩)),
        (lc ("Top Z (m)"), PyVal.f (.fin false ⟨2, 0⟩)),
        (lc ("Bottom Z (m)"), PyVal.f (.fin false ⟨3, 0⟩))]], colsOf5) ∧
    parse_enclosure_table (lc ("#1 KS28 B 1.0 2.0 3.0")) = .ok ([], colsOf5) := by
  refine ⟨by decide, by decide, by decide, by decide, by decide⟩

/-! ### Claim C6 -/

/-- A Python whitespace character is not a digit. -/
theorem isPySpace_not_digit {a : Char} (h : isPySpace a = true) : a.isDigit = false := by
  simp only [isPySpace, Bool.or_eq_true, beq_iff_eq] at h
  rcases h with ((((h | h) | h) | h) | h) | h <;> subst h <;> rfl

/-- A digit is not a Python whitespace character. -/
theorem isDigit_not_pySpace {a : Char} (h : a.isDigit = true) : isPySpace a = false := by
  cases hw : isPySpace a
  · rfl
  · rw [isPySpace_not_digit hw] at h
    exact Bool.noConfusion h

/-- A nonempty list has a last element. -/
theorem getLast?_ne_none {l : List Char} (h : l ≠ []) : ∃ a, l.getLast? = some a := by
  rcases List.eq_nil_or_concat l with rfl | ⟨l1, x, rfl⟩
  · exact absurd rfl h
  · exact ⟨x, by simp [List.concat_eq_append, List.getLast?_concat]⟩

/-- A nonempty suffix ends in the same character as the whole list. -/
theorem getLast?_of_suffix {b2 base : List Char} (h : List.IsSuffix b2 base)
    (hb : b2 ≠ []) : base.getLast? = b2.getLast? := by
  obtain ⟨u, rfl⟩ := h
  rcases List.eq_nil_or_concat b2 with rfl | ⟨b1, cb, rfl⟩
  · exact absurd rfl hb
  · simp only [List.concat_eq_append, ← List.append_assoc, List.getLast?_concat]

/-- `dropWhile` over an append when the left part retains a character. -/
theorem dropWhile_append_left {p : Char → Bool} {a : List Char} (b : List Char)
    (h : a.dropWhile p ≠ []) : (a ++ b).dropWhile p = a.dropWhile p ++ b := by
  rw [List.dropWhile_append, if_neg (fun hcontra => h (List.isEmpty_iff.mp hcontra))]

/-- Splitting `dropWhile isPySpace` at its first kept character, for a list
that ends in a non-whitespace character. -/
theorem dropWhile_ends_not_ws {b2 : List Char} {cb : Char}
    (hb : b2.getLast? = some cb) (hcb : isPySpace cb = false) :
    ∃ d b3, b2.dropWhile isPySpace = d :: b3 ∧ isPySpace d = false := by
  have hmem : cb ∈ b2 := by
    rcases List.eq_nil_or_concat b2 with rfl | ⟨b1, x, rfl⟩
    · exact Option.noConfusion hb
    · simp only [List.concat_eq_append, List.getLast?_concat, Option.some.injEq] at hb
      subst hb
      simp
  have hdnn : b2.dropWhile isPySpace ≠ [] := by
    intro hnil
    have hws := List.dropWhile_eq_nil_iff.mp hnil cb hmem
    rw [hcb] at hws
    exact Bool.noConfusion hws
  cases hD : b2.dropWhile isPySpace with
  | nil => exact absurd hD hdnn
  | cons d b3 =>
    refine ⟨d, b3, rfl, ?_⟩
    have hh := List.head?_dropWhile_not isPySpace b2
    rw [hD] at hh
    simpa using hh

/-- A suffix of `a ++ b` is a suffix of `b`, or `b` extended by a nonempty
suffix of `a`. -/
theorem suffix_append_cases {α : Type} : ∀ (a : List α) {b t : List α},
    List.IsSuffix t (a ++ b) →
    List.IsSuffix t b ∨ ∃ a2, List.IsSuffix a2 a ∧ a2 ≠ [] ∧ t = a2 ++ b
  | [], _, _, h => Or.inl (by simpa using h)
  | x :: a', b, t, h => by
    rcases List.suffix_cons_iff.mp (by simpa using h) with rfl | h2
    · exact Or.inr ⟨x :: a', List.suffix_refl _, List.cons_ne_nil x a', by rw [List.cons_append]⟩
    · rcases suffix_append_cases a' h2 with h3 | ⟨a2, hsuf, hne, rfl⟩
      · exact Or.inl h3
      · exact Or.inr ⟨a2, hsuf.trans (List.suffix_cons x a'), hne, rfl⟩

/-- `matchDigAnchor` accepts only a digit run followed by nothing or one
final newline, so every character it consumes is whitespace or a digit. -/
theorem matchDigAnchor_some_mem {x : List Char} {p : List Char × List Char}
    (h : matchDigAnchor x = some p) :
    ∀ y ∈ x, (isPySpace y || y.isDigit) = true := by
  intro y hy
  simp only [matchDigAnchor] at h
  rw [← List.takeWhile_append_dropWhile Char.isDigit x] at hy
  rcases List.mem_append.mp hy with hy | hy
  · simp [List.mem_takeWhile_imp hy]
  · by_cases h1 : x.dropWhile Char.isDigit = []
    · rw [h1] at hy
      exact absurd hy (List.not_mem_nil y)
    · by_cases h2 : x.dropWhile Char.isDigit = ['\n']
      · rw [h2, List.mem_singleton] at hy
        subst hy
        rfl
      · rw [if_neg h1, if_neg h2] at h
        exact Option.noConfusion h

/-- Everything `\s*(\d*)$` accepts is whitespace or digits. -/
theorem matchWD_some_mem : ∀ (x : List Char) (p : List Char × List Char),
    matchWD x = some p → ∀ y ∈ x, (isPySpace y || y.isDigit) = true
  | [], _ => by
    intro _ y hy
    exact absurd hy (List.not_mem_nil y)
  | c :: cs, p => by
    intro h y hy
    rw [List.mem_cons] at hy
    by_cases hws : isPySpace c = true
    · cases hm : matchWD cs with
      | some q =>
        rcases hy with rfl | hy
        · simp [hws]
        · exact matchWD_some_mem cs q hm y hy
      | none =>
        have h2 : matchDigAnchor (c :: cs) = some p := by
          rw [show matchWD (c :: cs) = matchDigAnchor (c :: cs) from by
            simp [matchWD, hws, hm]] at h
          exact h
        refine matchDigAnchor_some_mem h2 y ?_
        rcases hy with rfl | hy
        · simp
        · simp [hy]
    · have h2 : matchDigAnchor (c :: cs) = some p := by
        rw [show matchWD (c :: cs) = matchDigAnchor (c :: cs) from by
          simp [matchWD, hws]] at h
        exact h
      refine matchDigAnchor_some_mem h2 y ?_
      rcases hy with rfl | hy
      · simp
      · simp [hy]

/-- A character that is neither whitespace nor a digit rules out any
`\s*(\d*)$` match over a list containing it. -/
theorem matchWD_none_blocked {x : List Char} {c : Char} (hm : c ∈ x)
    (h1 : isPySpace c = false) (h2 : c.isDigit = false) : matchWD x = none := by
  cases hx : matchWD x with
  | none => rfl
  | some p =>
    have hall := matchWD_some_mem x p hx c hm
    rw [h1, h2] at hall
    exact Bool.noConfusion hall

/-- `\s*(\d*)$` accepts whitespace followed by digits, capturing exactly
the digits and exhausting the input. -/
theorem matchWD_complete : ∀ (w2 ds : List Char),
    (∀ a ∈ w2, isPySpace a = true) → (∀ a ∈ ds, a.isDigit = true) →
    matchWD (w2 ++ ds) = some (ds, [])
  | [], [], _, _ => rfl
  | [], d :: ds', _, hds => by
    have hd : d.isDigit = true := hds d (List.mem_cons_self d ds')
    have hws : isPySpace d = false := isDigit_not_pySpace hd
    show matchWD (d :: ds') = some (d :: ds', [])
    rw [show matchWD (d :: ds') = matchDigAnchor (d :: ds') from by
      simp [matchWD, hws]]
    simp only [matchDigAnchor]
    rw [List.takeWhile_eq_self_iff.mpr hds, List.dropWhile_eq_nil_iff.mpr hds]
    rfl
  | w0 :: w2', ds, hw2, hds => by
    have h0 : isPySpace w0 = true := hw2 w0 (List.mem_cons_self w0 w2')
    have ih := matchWD_complete w2' ds (fun a ha => hw2 a (List.mem_cons_of_mem w0 ha)) hds
    show matchWD (w0 :: (w2' ++ ds)) = some (ds, [])
    rw [show matchWD (w0 :: (w2' ++ ds)) = (match matchWD (w2' ++ ds) with
        | some q => some q
        | none => matchDigAnchor (w0 :: (w2' ++ ds))) from by
      simp [matchWD, h0]]
    rw [ih]

/-- Evaluation of the `\s+[LR]...` matcher on a nonempty whitespace run
followed by a non-whitespace character. -/
theorem matchLR_eval_pos {w x : List Char} {c : Char} (hw : w ≠ [])
    (hws : ∀ a ∈ w, isPySpace a = true) (hc : isPySpace c = false) :
    matchLR (w ++ c :: x) = if c = 'L' ∨ c = 'R' then matchWD x else none := by
  simp only [matchLR]
  rw [List.takeWhile_append_of_pos hws, List.dropWhile_append_of_pos hws]
  rw [List.takeWhile_cons_of_neg (by simp [hc]), List.dropWhile_cons_of_neg (by simp [hc])]
  rw [List.append_nil, if_neg hw]

/-- No `\s+[LR]\s*(\d*)$` match can start inside a prefix ending in a
non-whitespace character while the orientation letter is still ahead: that
letter is neither whitespace nor a digit, so it blocks the rest of the
pattern. -/
theorem matchLR_inside_none {b2 T : List Char} {cb cc : Char}
    (hb : b2.getLast? = some cb) (hcb : isPySpace cb = false)
    (hcc : cc ∈ T) (h1 : isPySpace cc = false) (h2 : cc.isDigit = false) :
    matchLR (b2 ++ T) = none := by
  obtain ⟨d, b3, hD, hdws⟩ := dropWhile_ends_not_ws hb hcb
  simp only [matchLR]
  by_cases htw : (b2 ++ T).takeWhile isPySpace = []
  · rw [if_pos htw]
  · rw [if_neg htw]
    have hrest : (b2 ++ T).dropWhile isPySpace = d :: (b3 ++ T) := by
      rw [dropWhile_append_left T (by rw [hD]; exact List.cons_ne_nil d b3), hD,
        List.cons_append]
    rw [hrest]
    show (if d = 'L' ∨ d = 'R' then matchWD (b3 ++ T) else none) = none
    by_cases hdLR : d = 'L' ∨ d = 'R'
    · rw [if_pos hdLR]
      exact matchWD_none_blocked (by simp [hcc]) h1 h2
    · rw [if_neg hdLR]

/-- `canonSub` passes over characters that start no match. -/
theorem canonSub_append_of_none : ∀ (base : List Char) {T : List Char},
    (∀ b2 : List Char, b2 ≠ [] → List.IsSuffix b2 base → matchLR (b2 ++ T) = none) →
    canonSub (base ++ T) = base ++ canonSub T
  | [], _, _ => by simp
  | b0 :: bs, T, h => by
    have h0 : matchLR (b0 :: (bs ++ T)) = none := by
      have hh := h (b0 :: bs) (List.cons_ne_nil b0 bs) (List.suffix_refl (b0 :: bs))
      rw [List.cons_append] at hh
      exact hh
    rw [List.cons_append, List.cons_append]
    rw [show canonSub (b0 :: (bs ++ T)) = b0 :: canonSub (bs ++ T) from by
      simp only [canonSub]
      rw [h0]]
    rw [canonSub_append_of_none bs
      (fun b2 hb2 hsuf => h b2 hb2 (hsuf.trans (List.suffix_cons b0 bs)))]

/-- `canonSub` rewrites at a position where the pattern matches. -/
theorem canonSub_cons_match {c : Char} {cs ds rem : List Char}
    (h : matchLR (c :: cs) = some (ds, rem)) :
    canonSub (c :: cs) = (if ds = [] then [] else ' ' :: ds) ++ rem := by
  simp only [canonSub]
  rw [h]

/-- The canonical-name substitution on a raw name of the documented
`<base><ws><L or R><ws><digits>` shape (base not ending in whitespace):
everything from the separating whitespace on is replaced by a blank plus
the index digits, or by nothing when there is no index. -/
theorem canonSub_shape (base w w2 ds : List Char) (c : Char) (hw : w ≠ [])
    (hws : ∀ a ∈ w, isPySpace a = true) (hc : c = 'L' ∨ c = 'R')
    (hw2 : ∀ a ∈ w2, isPySpace a = true) (hds : ∀ a ∈ ds, a.isDigit = true)
    (hbase : ∀ cb, base.getLast? = some cb → isPySpace cb = false) :
    canonSub (base ++ (w ++ c :: (w2 ++ ds))) =
      base ++ (if ds = [] then [] else ' ' :: ds) := by
  have hcws : isPySpace c = false := by rcases hc with rfl | rfl <;> rfl
  have hcd : c.isDigit = false := by rcases hc with rfl | rfl <;> rfl
  have hT : matchLR (w ++ c :: (w2 ++ ds)) = some (ds, []) := by
    rw [matchLR_eval_pos hw hws hcws, if_pos hc, matchWD_complete w2 ds hw2 hds]
  have happ : canonSub (base ++ (w ++ c :: (w2 ++ ds))) =
      base ++ canonSub (w ++ c :: (w2 ++ ds)) := by
    refine canonSub_append_of_none base ?_
    intro b2 hb2 hsuf
    obtain ⟨cb, hL⟩ := getLast?_ne_none hb2
    have hlast : base.getLast? = b2.getLast? := getLast?_of_suffix hsuf hb2
    exact matchLR_inside_none hL (hbase cb (by rw [hlast, hL])) (by simp) hcws hcd
  rw [happ]
  cases w with
  | nil => exact absurd rfl hw
  | cons w0 w' =>
    rw [List.cons_append]
    rw [canonSub_cons_match (by rw [← List.cons_append]; exact hT)]
    rw [List.append_nil]

/-- When the optional `(\s+\d+)?$` tail accepts, every character of the
tail is whitespace or a digit. -/
theorem mirrorTail_true_mem {cs : List Char} (h : mirrorTail cs = true) :
    ∀ x ∈ cs, (isPySpace x || x.isDigit) = true := by
  intro x hx
  simp only [mirrorTail, Bool.or_eq_true, decide_eq_true_eq] at h
  rcases h with h | h | h
  · by_cases hw : cs.takeWhile isPySpace = []
    · rw [if_pos hw] at h
      exact Bool.noConfusion h
    · rw [if_neg hw, Bool.and_eq_true] at h
      obtain ⟨hds, hr2⟩ := h
      rw [← List.takeWhile_append_dropWhile isPySpace cs] at hx
      rcases List.mem_append.mp hx with hx | hx
      · simp [List.mem_takeWhile_imp hx]
      · rw [← List.takeWhile_append_dropWhile Char.isDigit (cs.dropWhile isPySpace)] at hx
        rcases List.mem_append.mp hx with hx | hx
        · simp [List.mem_takeWhile_imp hx]
        · rw [Bool.or_eq_true, decide_eq_true_eq, decide_eq_true_eq] at hr2
          rcases hr2 with hr2 | hr2
          · rw [hr2] at hx
            exact absurd hx (List.not_mem_nil x)
          · rw [hr2, List.mem_singleton] at hx
            subst hx
            rfl
  · rw [h] at hx
    exact absurd hx (List.not_mem_nil x)
  · rw [h, List.mem_singleton] at hx
    subst hx
    rfl

/-- `(\s+\d+)?$` accepts a nonempty whitespace run followed by a nonempty
digit run. -/
theorem mirrorTail_index {w2 ds : List Char} (hw2n : w2 ≠ [])
    (hw2 : ∀ a ∈ w2, isPySpace a = true) (hdsn : ds ≠ [])
    (hds : ∀ a ∈ ds, a.isDigit = true) : mirrorTail (w2 ++ ds) = true := by
  cases ds with
  | nil => exact absurd rfl hdsn
  | cons d ds' =>
    have hd : isPySpace d = false := isDigit_not_pySpace (hds d (by simp))
    simp only [mirrorTail]
    rw [List.takeWhile_append_of_pos hw2, List.dropWhile_append_of_pos hw2]
    rw [List.takeWhile_cons_of_neg (by simp [hd]), List.dropWhile_cons_of_neg (by simp [hd])]
    rw [List.append_nil, if_neg hw2n]
    rw [List.takeWhile_eq_self_iff.mpr hds, List.dropWhile_eq_nil_iff.mpr hds]
    rfl

/-- The mirror pattern needs `\s+` first, so no match starts at a
non-whitespace character. -/
theorem mirrorAt_head_not_ws {c : Char} {x : List Char} (hc : isPySpace c = false) :
    mirrorAt (c :: x) = false := by
  simp only [mirrorAt]
  rw [List.takeWhile_cons_of_neg (by simp [hc])]
  rfl

/-- Evaluation of `mirrorAt` on a nonempty whitespace run followed by a
non-whitespace character. -/
theorem mirrorAt_eval_pos {w x : List Char} {c : Char} (hw : w ≠ [])
    (hws : ∀ a ∈ w, isPySpace a = true) (hc : isPySpace c = false) :
    mirrorAt (w ++ c :: x) = if c = 'R' then mirrorTail x else false := by
  simp only [mirrorAt]
  rw [List.takeWhile_append_of_pos hws, List.dropWhile_append_of_pos hws]
  rw [List.takeWhile_cons_of_neg (by simp [hc]), List.dropWhile_cons_of_neg (by simp [hc])]
  rw [List.append_nil, if_neg hw]

/-- `mirrorAt` fails on whitespace and digits only: after the whitespace
run the head, if any, is a digit and cannot be `R`. -/
theorem mirrorAt_all_ws_digit {t : List Char}
    (h : ∀ a ∈ t, (isPySpace a || a.isDigit) = true) : mirrorAt t = false := by
  simp only [mirrorAt]
  by_cases htw : t.takeWhile isPySpace = []
  · rw [if_pos htw]
  · rw [if_neg htw]
    cases hD : t.dropWhile isPySpace with
    | nil => rfl
    | cons d cs =>
      have hd1 : isPySpace d = false := by
        have hh := List.head?_dropWhile_not isPySpace t
        rw [hD] at hh
        simpa using hh
      have hd2 : d ∈ t := (List.dropWhile_sublist isPySpace).subset
        (by rw [hD]; exact List.mem_cons_self d cs)
      have hdd : d.isDigit = true := by
        have hor := h d hd2
        rw [hd1] at hor
        simpa using hor
      have hdR : ¬ d = 'R' := by
        intro hR
        subst hR
        exact Bool.noConfusion hdd
      show (if d = 'R' then mirrorTail cs else false) = false
      rw [if_neg hdR]

/-- As `matchLR_inside_none`, for the mirror pattern: no match starts
inside a prefix ending in non-whitespace while a character that is
neither whitespace nor a digit is still ahead. -/
theorem mirrorAt_inside_false {b2 T : List Char} {cb cc : Char}
    (hb : b2.getLast? = some cb) (hcb : isPySpace cb = false)
    (hcc : cc ∈ T) (h1 : isPySpace cc = false) (h2 : cc.isDigit = false) :
    mirrorAt (b2 ++ T) = false := by
  obtain ⟨d, b3, hD, hdws⟩ := dropWhile_ends_not_ws hb hcb
  simp only [mirrorAt]
  by_cases htw : (b2 ++ T).takeWhile isPySpace = []
  · rw [if_pos htw]
  · rw [if_neg htw]
    have hrest : (b2 ++ T).dropWhile isPySpace = d :: (b3 ++ T) := by
      rw [dropWhile_append_left T (by rw [hD]; exact List.cons_ne_nil d b3), hD,
        List.cons_append]
    rw [hrest]
    show (if d = 'R' then mirrorTail (b3 ++ T) else false) = false
    by_cases hdR : d = 'R'
    · rw [if_pos hdR]
      cases hmt : mirrorTail (b3 ++ T) with
      | false => rfl
      | true =>
        have hall := mirrorTail_true_mem hmt cc (by simp [hcc])
        rw [h1, h2] at hall
        exact Bool.noConfusion hall
    · rw [if_neg hdR]

/-- `re.search` succeeds as soon as any position matches. -/
theorem is_mirror_of_suffix : ∀ (s : List Char) {t : List Char},
    mirrorAt t = true → List.IsSuffix t s → t ≠ [] → is_mirror s = true
  | [], t, _, hsuf, ht => by
    obtain ⟨u, hu⟩ := hsuf
    exact absurd (List.append_eq_nil.mp hu).2 ht
  | c :: cs, t, h, hsuf, ht => by
    rcases List.suffix_cons_iff.mp hsuf with rfl | hsuf2
    · simp only [is_mirror, h, Bool.true_or]
    · have ih := is_mirror_of_suffix cs h hsuf2 ht
      simp only [is_mirror, ih, Bool.or_true]

/-- `re.search` fails when every position fails. -/
theorem is_mirror_false_of_all : ∀ (s : List Char),
    (∀ t, t ≠ [] → List.IsSuffix t s → mirrorAt t = false) → is_mirror s = false
  | [], _ => rfl
  | c :: cs, h => by
    have h0 : mirrorAt (c :: cs) = false :=
      h (c :: cs) (List.cons_ne_nil c cs) (List.suffix_refl (c :: cs))
    have ih := is_mirror_false_of_all cs
      (fun t ht hsuf => h t ht (hsuf.trans (List.suffix_cons c cs)))
    simp [is_mirror, h0, ih]

/-- With an `L` orientation letter no position matches the mirror
pattern: a match starting inside the base is blocked by the `L`, a match
at the separating whitespace needs `R`, and positions at or after the `L`
leave no `R` to consume. -/
theorem is_mirror_L_false (base w w2 ds : List Char) (hw : w ≠ [])
    (hws : ∀ a ∈ w, isPySpace a = true)
    (hw2 : ∀ a ∈ w2, isPySpace a = true) (hds : ∀ a ∈ ds, a.isDigit = true)
    (hbase : ∀ cb, base.getLast? = some cb → isPySpace cb = false) :
    is_mirror (base ++ (w ++ 'L' :: (w2 ++ ds))) = false := by
  apply is_mirror_false_of_all
  intro t ht hsuf
  rcases suffix_append_cases base hsuf with hsb | ⟨b2, hsufb, hb2, rfl⟩
  · rcases suffix_append_cases w hsb with hsw | ⟨ws2, hsufw, hws2, rfl⟩
    · rcases List.suffix_cons_iff.mp hsw with rfl | hsww
      · exact mirrorAt_head_not_ws (show isPySpace 'L' = false from rfl)
      · refine mirrorAt_all_ws_digit ?_
        intro a ha
        rcases List.mem_append.mp (hsww.subset ha) with hmm | hmm
        · simp [hw2 a hmm]
        · simp [hds a hmm]
    · rw [mirrorAt_eval_pos hws2 (fun a ha => hws a (hsufw.subset ha))
        (show isPySpace 'L' = false from rfl)]
      rw [if_neg (by decide)]
  · obtain ⟨cb, hL⟩ := getLast?_ne_none hb2
    have hlast : base.getLast? = b2.getLast? := getLast?_of_suffix hsufb hb2
    exact mirrorAt_inside_false hL (hbase cb (by rw [hlast, hL]))
      (show ('L' : Char) ∈ w ++ 'L' :: (w2 ++ ds) from by simp)
      (show isPySpace 'L' = false from rfl)
      (show Char.isDigit 'L' = false from rfl)

/-- With an `R` orientation letter the position at the separating
whitespace matches the mirror pattern (the index, when present, being a
whitespace-separated digit run). -/
theorem is_mirror_R_true (base w w2 ds : List Char) (hw : w ≠ [])
    (hws : ∀ a ∈ w, isPySpace a = true)
    (hw2 : ∀ a ∈ w2, isPySpace a = true) (hds : ∀ a ∈ ds, a.isDigit = true)
    (hidx : (w2 = [] ∧ ds = []) ∨ (w2 ≠ [] ∧ ds ≠ [])) :
    is_mirror (base ++ (w ++ 'R' :: (w2 ++ ds))) = true := by
  refine is_mirror_of_suffix (base ++ (w ++ 'R' :: (w2 ++ ds))) ?_ ⟨base, rfl⟩ ?_
  · rw [mirrorAt_eval_pos hw hws (show isPySpace 'R' = false from rfl), if_pos rfl]
    rcases hidx with ⟨rfl, rfl⟩ | ⟨hw2n, hdsn⟩
    · rfl
    · exact mirrorTail_index hw2n hw2 hdsn hds
  · simp

/-- **C6.**  `canonicalize("KARA L") = "KARA"`, `canonicalize("KARA R 2")
= "KARA 2"`, `is_mirror("KARA R")` holds and `is_mirror("KARA L")` does
not; and on every raw name of the documented shape
`<base><ws><L or R><ws><digits>` — base not ending in whitespace, with the
optional index either absent or a whitespace-separated digit run —
`get_canonical_name` strips the orientation letter while preserving the
trailing numeric index, and `is_mirror` holds exactly for the `R`
orientation. -/
theorem claim6_canonical_names :
    (get_canonical_name (lc ("KARA L")) = lc ("KARA") ∧
     get_canonical_name (lc ("KARA R 2")) = lc ("KARA 2") ∧
     is_mirror (lc ("KARA R")) = true ∧ is_mirror (lc ("KARA L")) = false) ∧
    (∀ base w w2 ds : List Char, ∀ c : Char, w ≠ [] →
      (∀ a ∈ w, isPySpace a = true) → (c = 'L' ∨ c = 'R') →
      (∀ a ∈ w2, isPySpace a = true) → (∀ a ∈ ds, a.isDigit = true) →
      ((w2 = [] ∧ ds = []) ∨ (w2 ≠ [] ∧ ds ≠ [])) →
      (∀ cb, base.getLast? = some cb → isPySpace cb = false) →
      get_canonical_name (base ++ (w ++ c :: (w2 ++ ds))) =
          pyStrip (base ++ (if ds = [] then [] else ' ' :: ds)) ∧
        (is_mirror (base ++ (w ++ c :: (w2 ++ ds))) = true ↔ c = 'R')) := by
  constructor
  · exact ⟨by decide, by decide, by decide, by decide⟩
  · intro base w w2 ds c hw hws hc hw2 hds hidx hbase
    constructor
    · show pyStrip (canonSub (base ++ (w ++ c :: (w2 ++ ds)))) = _
      rw [canonSub_shape base w w2 ds c hw hws hc hw2 hds hbase]
    · rcases hc with rfl | rfl
      · rw [is_mirror_L_false base w w2 ds hw hws hw2 hds hbase]
        exact ⟨fun h => Bool.noConfusion h, fun h => absurd h (by decide)⟩
      · rw [is_mirror_R_true base w w2 ds hw hws hw2 hds hidx]
        exact ⟨fun _ => rfl, fun _ => rfl⟩

/-- Witness instantiating C6's universal part at the name `"KARA R 2"`
split as base `"KARA"`, one separating blank, letter `R`, one blank and
index `"2"`. -/
theorem claim6_canonical_names_witness :
    get_canonical_name (lc ("KARA") ++ ([' '] ++ 'R' :: ([' '] ++ ['2']))) =
        pyStrip (lc ("KARA") ++ (if (['2'] : List Char) = [] then [] else ' ' :: ['2'])) ∧
      is_mirror (lc ("KARA") ++ ([' '] ++ 'R' :: ([' '] ++ ['2']))) = true := by
  have h := claim6_canonical_names.2 (lc ("KARA")) [' '] [' '] ['2'] 'R'
    (by decide)
    (by intro a ha; rw [List.mem_singleton] at ha; subst ha; rfl)
    (Or.inr rfl)
    (by intro a ha; rw [List.mem_singleton] at ha; subst ha; rfl)
    (by intro a ha; rw [List.mem_singleton] at ha; subst ha; rfl)
    (Or.inr ⟨by decide, by decide⟩)
    (by intro cb hcb
        rw [show (lc ("KARA")).getLast? = some 'A' from rfl] at hcb
        injection hcb with h2
        exact h2 ▸ rfl)
  exact ⟨h.1, h.2.mpr rfl⟩
